import Mathlib

/-!
Verification of the slide streaming / parsing core of the `ks_gb10`
frontend (`src/frontend/src/pages/SignIn.tsx` and
`src/frontend/src/pages/PresentationView.tsx`).

Strings are modelled as `List Char`.  JavaScript string operations used
by the source (`trim`, `split`, `join`, anchored regex replacements) are
translated directly; the streaming `TextDecoder` is modelled by the
WHATWG incremental UTF-8 decode state machine it implements.
-/

set_option autoImplicit false

abbrev Str := List Char

def nl : Char := '\n'

/-- Whitespace test covering the ASCII whitespace characters (JS `trim`
and `\s` additionally accept some exotic Unicode spaces which play no
role in this development). -/
def isWs (c : Char) : Bool :=
  c = ' ' || c = '\t' || c = '\n' || c = '\r' || c = '\x0b' || c = '\x0c'

/-- Strip trailing whitespace. -/
def trimR (s : Str) : Str := (s.reverse.dropWhile isWs).reverse

/-- JS `String.prototype.trim`. -/
def trim (s : Str) : Str := trimR (s.dropWhile isWs)

/-- Repeated leftmost search for a separator, as performed by JS
`String.prototype.split`: returns the list of complete parts (one per
separator occurrence, in order) and the remainder after the last
occurrence.  `fuel` only drives structural recursion; `s.length` is
always enough fuel when the separator is non-empty. -/
def dmx (sep : Str) : Nat → Str → List Str × Str
  | _, [] => ([], [])
  | 0, s => ([], s)
  | fuel+1, c :: t =>
    if sep.isPrefixOf (c :: t) then
      let r := dmx sep fuel ((c :: t).drop sep.length)
      ([] :: r.1, r.2)
    else
      let r := dmx sep fuel t
      match r.1 with
      | [] => ([], c :: r.2)
      | p :: ps => ((c :: p) :: ps, r.2)

def demux (sep s : Str) : List Str × Str := dmx sep s.length s

/-- JS `s.split(sep)` for a non-empty string separator. -/
def splitOn (sep s : Str) : List Str := (demux sep s).1 ++ [(demux sep s).2]

/-- JS `Array.prototype.join(sep)`. -/
def joinSep (sep : Str) : List Str → Str
  | [] => []
  | [b] => b
  | b :: b2 :: bs => b ++ sep ++ joinSep sep (b2 :: bs)

/-- Prepend a character to the first part (or, when there is none, to
the remainder) of a demultiplexer result. -/
def cons1 (c : Char) (r : List Str × Str) : List Str × Str :=
  match r.1 with
  | [] => ([], c :: r.2)
  | p :: ps => ((c :: p) :: ps, r.2)

/-! ### Basic facts about `demux` -/

theorem dmx_fuel (sep : Str) (hsep : sep ≠ []) :
    ∀ f s, List.length s ≤ f → dmx sep f s = demux sep s := by
  intro f
  induction f using Nat.strong_induction_on with
  | _ f ih =>
    intro s hs
    cases s with
    | nil => cases f <;> rfl
    | cons c t =>
      cases f with
      | zero => simp at hs
      | succ f =>
        have hsl : 1 ≤ sep.length := List.length_pos.mpr hsep
        have hdrop : ((c :: t).drop sep.length).length ≤ t.length := by
          simp only [List.length_drop, List.length_cons]
          omega
        have htf : t.length ≤ f := by
          simp only [List.length_cons] at hs; omega
        show _ = dmx sep (t.length + 1) (c :: t)
        simp only [dmx]
        by_cases h : sep.isPrefixOf (c :: t)
        · rw [if_pos h, if_pos h,
              ih f (by omega) _ (le_trans hdrop htf),
              ih t.length (by omega) _ hdrop]
        · rw [if_neg h, if_neg h,
              ih f (by omega) t htf, ih t.length (by omega) t (le_refl _)]

theorem demux_nil (sep : Str) : demux sep [] = ([], []) := rfl

theorem demux_match {sep : Str} (hsep : sep ≠ []) {c : Char} {t : Str}
    (h : sep.isPrefixOf (c :: t)) :
    demux sep (c :: t) =
      ([] :: (demux sep ((c :: t).drop sep.length)).1,
        (demux sep ((c :: t).drop sep.length)).2) := by
  have hsl : 1 ≤ sep.length := by
    cases sep with
    | nil => exact absurd rfl hsep
    | cons a b => simp
  show dmx sep (t.length + 1) (c :: t) = _
  simp only [dmx]
  rw [if_pos h,
      dmx_fuel sep hsep t.length _ (by simp only [List.length_drop, List.length_cons]; omega)]

theorem demux_nomatch {sep : Str} {c : Char} {t : Str}
    (h : ¬ sep.isPrefixOf (c :: t)) :
    demux sep (c :: t) = cons1 c (demux sep t) := by
  show dmx sep (t.length + 1) (c :: t) = _
  simp only [dmx]
  rw [if_neg h]
  rfl

/-! ### Occurrence predicates -/

/-- `sep` occurs nowhere in `s`: no suffix of `s` starts with `sep`. -/
def NoOccB (sep : Str) : Str → Bool
  | [] => !sep.isPrefixOf []
  | c :: t => !sep.isPrefixOf (c :: t) && NoOccB sep t

/-- No occurrence of `sep` starts strictly inside `b` when `b` is
followed by a copy of `sep` (the condition under which JS `split` cuts
`b ++ sep ++ …` exactly at the end of `b`). -/
def CleanB (sep : Str) : Str → Bool
  | [] => true
  | c :: t => !sep.isPrefixOf ((c :: t) ++ sep) && CleanB sep t

theorem isPrefixOf_nil_right {sep : Str} (hsep : sep ≠ []) :
    sep.isPrefixOf ([] : Str) = false := by
  cases sep with
  | nil => exact absurd rfl hsep
  | cons a t => rfl

theorem isPrefixOf_length_le {s t : Str} (h : s.isPrefixOf t = true) :
    s.length ≤ t.length :=
  (List.isPrefixOf_iff_prefix.mp h).length_le

theorem isPrefixOf_append_right {s t : Str} (y : Str) (h : s.isPrefixOf t = true) :
    s.isPrefixOf (t ++ y) = true :=
  List.isPrefixOf_iff_prefix.mpr ((List.isPrefixOf_iff_prefix.mp h).trans (t.prefix_append y))

theorem isPrefixOf_of_append {s t y : Str} (hl : s.length ≤ t.length)
    (h : s.isPrefixOf (t ++ y) = true) : s.isPrefixOf t = true :=
  List.isPrefixOf_iff_prefix.mpr
    (List.prefix_of_prefix_length_le (List.isPrefixOf_iff_prefix.mp h) (t.prefix_append y) hl)

theorem demux_parts_nil {sep : Str} (hsep : sep ≠ []) :
    ∀ s : Str, (demux sep s).1 = [] → (demux sep s).2 = s := by
  intro s
  induction s with
  | nil => intro _; rfl
  | cons c t ih =>
    intro h
    by_cases h1 : sep.isPrefixOf (c :: t)
    · rw [demux_match hsep h1] at h
      simp at h
    · rw [demux_nomatch h1] at h ⊢
      unfold cons1 at h ⊢
      cases hp : (demux sep t).1 with
      | nil =>
        simp only [hp]
        rw [ih hp]
      | cons p ps => rw [hp] at h; simp at h

theorem demux_short {sep : Str} :
    ∀ s : Str, s.length < sep.length → demux sep s = ([], s) := by
  intro s
  induction s with
  | nil => intro _; rfl
  | cons c t ih =>
    intro hl
    have h1 : ¬ sep.isPrefixOf (c :: t) = true := by
      intro h
      exact absurd (isPrefixOf_length_le h) (by omega)
    rw [demux_nomatch h1, ih (by simp only [List.length_cons] at hl ⊢; omega)]
    rfl

theorem demux_noOcc {sep : Str} :
    ∀ s : Str, NoOccB sep s = true → demux sep s = ([], s) := by
  intro s
  induction s with
  | nil => intro _; rfl
  | cons c t ih =>
    intro h
    simp only [NoOccB, Bool.and_eq_true, Bool.not_eq_true'] at h
    have h1 : ¬ sep.isPrefixOf (c :: t) = true := by simp [h.1]
    rw [demux_nomatch h1, ih h.2]
    rfl

theorem noOccB_single {c : Char} :
    ∀ s : Str, NoOccB [c] s = true ↔ c ∉ s := by
  intro s
  induction s with
  | nil => simp [NoOccB]
  | cons d t ih =>
    simp only [NoOccB, Bool.and_eq_true, Bool.not_eq_true', List.mem_cons, ih]
    constructor
    · rintro ⟨h1, h2⟩ (rfl | hm)
      · simp [List.isPrefixOf] at h1
      · exact h2 hm
    · intro h
      refine ⟨?_, fun hm => h (Or.inr hm)⟩
      have : ¬ c = d := fun hcd => h (Or.inl hcd)
      simp [List.isPrefixOf, this]

/-! ### Compositionality of the demultiplexer -/

theorem demux_append (sep : Str) (hsep : sep ≠ []) :
    ∀ n (s : Str), s.length ≤ n → ∀ y : Str,
      demux sep (s ++ y) =
        ((demux sep s).1 ++ (demux sep ((demux sep s).2 ++ y)).1,
          (demux sep ((demux sep s).2 ++ y)).2) := by
  intro n
  induction n using Nat.strong_induction_on with
  | _ n ih =>
    intro s hs y
    cases s with
    | nil => simp [demux_nil]
    | cons c t =>
      have hslen : 1 ≤ sep.length := List.length_pos.mpr hsep
      by_cases h1 : sep.isPrefixOf (c :: t)
      · have h2 : sep.isPrefixOf (c :: (t ++ y)) = true := by
          have := isPrefixOf_append_right y h1
          rwa [List.cons_append] at this
        have hlen : sep.length ≤ (c :: t).length := isPrefixOf_length_le h1
        have hdropappend : (c :: (t ++ y)).drop sep.length =
            ((c :: t).drop sep.length) ++ y := by
          rw [← List.cons_append, List.drop_append_eq_append_drop,
            Nat.sub_eq_zero_of_le hlen, List.drop_zero]
        have hdl : ((c :: t).drop sep.length).length < n := by
          simp only [List.length_drop, List.length_cons]
          simp only [List.length_cons] at hs
          omega
        rw [show ((c :: t) ++ y) = c :: (t ++ y) from rfl, demux_match hsep h2,
          hdropappend, demux_match hsep h1,
          ih ((c :: t).drop sep.length).length hdl _ (le_refl _) y]
        simp
      · by_cases h2 : sep.isPrefixOf (c :: (t ++ y))
        · have hlen : (c :: t).length < sep.length := by
            by_contra hc
            push_neg at hc
            have := isPrefixOf_of_append hc
              (by rwa [List.cons_append] : sep.isPrefixOf ((c :: t) ++ y) = true)
            exact h1 this
          rw [demux_short _ hlen]
          simp
        · have htn : t.length < n := by
            simp only [List.length_cons] at hs; omega
          cases hp : (demux sep t).1 with
          | nil =>
            have hr : (demux sep t).2 = t := demux_parts_nil hsep t hp
            rw [demux_nomatch h1]
            simp only [cons1, hp, hr, List.nil_append]
          | cons p ps =>
            rw [show ((c :: t) ++ y) = c :: (t ++ y) from rfl, demux_nomatch h2,
              demux_nomatch h1, ih t.length htn t (le_refl _) y]
            simp [cons1, hp, List.cons_append]

/-- The remainder left by the demultiplexer never contains the separator. -/
theorem demux_rem_noOcc (sep : Str) (hsep : sep ≠ []) :
    ∀ n (s : Str), s.length ≤ n → NoOccB sep (demux sep s).2 = true := by
  intro n
  induction n using Nat.strong_induction_on with
  | _ n ih =>
    intro s hs
    cases s with
    | nil => simp [demux_nil, NoOccB, isPrefixOf_nil_right hsep]
    | cons c t =>
      have hslen : 1 ≤ sep.length := List.length_pos.mpr hsep
      by_cases h1 : sep.isPrefixOf (c :: t)
      · have hdl : ((c :: t).drop sep.length).length < n := by
          simp only [List.length_drop, List.length_cons]
          simp only [List.length_cons] at hs
          omega
        rw [demux_match hsep h1]
        exact ih _ hdl _ (le_refl _)
      · have htn : t.length < n := by
          simp only [List.length_cons] at hs; omega
        rw [demux_nomatch h1]
        cases hp : (demux sep t).1 with
        | nil =>
          have hr : (demux sep t).2 = t := demux_parts_nil hsep t hp
          simp only [cons1, hp]
          show NoOccB sep (c :: (demux sep t).2) = true
          simp only [NoOccB, hr, Bool.and_eq_true, Bool.not_eq_true']
          refine ⟨by simp [h1], ?_⟩
          have := ih t.length htn t (le_refl _)
          rwa [hr] at this
        | cons p ps =>
          simp only [cons1, hp]
          show NoOccB sep (demux sep t).2 = true
          exact ih t.length htn t (le_refl _)

/-! ### `split` / `join` inverses -/

theorem joinSep_cons_ne (sep b : Str) {bs : List Str} (h : bs ≠ []) :
    joinSep sep (b :: bs) = b ++ sep ++ joinSep sep bs := by
  cases bs with
  | nil => exact absurd rfl h
  | cons b2 bs' => rfl

theorem demux_clean_split (sep : Str) (hsep : sep ≠ []) :
    ∀ b rest : Str, CleanB sep b = true →
      demux sep (b ++ sep ++ rest) = (b :: (demux sep rest).1, (demux sep rest).2) := by
  intro b
  induction b with
  | nil =>
    intro rest _
    cases hse : sep with
    | nil => exact absurd hse hsep
    | cons a s' =>
      have hpre : sep.isPrefixOf (sep ++ rest) = true :=
        List.isPrefixOf_iff_prefix.mpr (sep.prefix_append rest)
      rw [hse] at hpre
      have := demux_match (hse ▸ hsep) (t := s' ++ rest) (by rwa [List.cons_append] at hpre)
      rw [List.nil_append, hse, List.cons_append] at *
      rw [this]
      have hdrop : (a :: (s' ++ rest)).drop (a :: s').length = rest := by
        rw [← List.cons_append, List.drop_left]
      rw [hdrop]
  | cons c b' ih =>
    intro rest hclean
    simp only [CleanB, Bool.and_eq_true, Bool.not_eq_true'] at hclean
    have h1 : ¬ sep.isPrefixOf ((c :: b') ++ sep ++ rest) = true := by
      intro h
      have hl : sep.length ≤ ((c :: b') ++ sep).length := by
        simp only [List.length_append]
        omega
      have := isPrefixOf_of_append hl h
      rw [hclean.1] at this
      exact Bool.false_ne_true this
    have h1' : ¬ sep.isPrefixOf (c :: (b' ++ sep ++ rest)) = true := by
      simpa only [List.cons_append] using h1
    rw [show (c :: b') ++ sep ++ rest = c :: (b' ++ sep ++ rest) by simp,
      demux_nomatch h1', ih rest hclean.2]
    rfl

theorem splitOn_joinSep (sep : Str) (hsep : sep ≠ []) :
    ∀ blocks : List Str,
      (∀ b ∈ blocks, CleanB sep b = true ∧ NoOccB sep b = true) →
      blocks ≠ [] →
      splitOn sep (joinSep sep blocks) = blocks := by
  intro blocks
  induction blocks with
  | nil => intro _ h; exact absurd rfl h
  | cons b bs ih =>
    intro hb _
    cases bs with
    | nil =>
      show splitOn sep b = [b]
      unfold splitOn
      rw [demux_noOcc b (hb b (by simp)).2]
      rfl
    | cons b2 bs' =>
      rw [joinSep_cons_ne sep b (by simp)]
      unfold splitOn
      rw [demux_clean_split sep hsep b _ (hb b (by simp)).1]
      have hrest := ih (fun x hx => hb x (by simp [hx])) (by simp)
      unfold splitOn at hrest
      rw [List.cons_append, hrest]

theorem joinSep_splitOn (sep : Str) (hsep : sep ≠ []) :
    ∀ n (s : Str), s.length ≤ n → joinSep sep (splitOn sep s) = s := by
  intro n
  induction n using Nat.strong_induction_on with
  | _ n ih =>
    intro s hs
    cases s with
    | nil => rfl
    | cons c t =>
      have hslen : 1 ≤ sep.length := List.length_pos.mpr hsep
      by_cases h1 : sep.isPrefixOf (c :: t)
      · have hdl : ((c :: t).drop sep.length).length < n := by
          simp only [List.length_drop, List.length_cons]
          simp only [List.length_cons] at hs
          omega
        unfold splitOn
        rw [demux_match hsep h1]
        have hrec := ih _ hdl ((c :: t).drop sep.length) (le_refl _)
        unfold splitOn at hrec
        simp only [List.cons_append]
        rw [joinSep_cons_ne sep [] (by simp), List.nil_append, hrec]
        have hpre := List.isPrefixOf_iff_prefix.mp h1
        obtain ⟨r, hr⟩ := hpre
        rw [← hr, List.drop_left]
      · have htn : t.length < n := by
          simp only [List.length_cons] at hs; omega
        have hrec := ih t.length htn t (le_refl _)
        unfold splitOn at hrec ⊢
        rw [demux_nomatch h1]
        cases hp : (demux sep t).1 with
        | nil =>
          have hr : (demux sep t).2 = t := demux_parts_nil hsep t hp
          simp only [cons1, hp, hr, List.nil_append]
          rfl
        | cons p ps =>
          simp only [cons1, hp]
          rw [hp] at hrec
          simp only [List.cons_append] at hrec ⊢
          rw [joinSep_cons_ne sep p (by simp)] at hrec
          rw [joinSep_cons_ne sep (c :: p) (by simp)]
          conv_rhs => rw [← hrec]
          simp

/-! ### Decimal rendering of naturals (JS template interpolation of a number) -/

def digitChar (d : Nat) : Char :=
  if d = 0 then '0' else if d = 1 then '1' else if d = 2 then '2'
  else if d = 3 then '3' else if d = 4 then '4' else if d = 5 then '5'
  else if d = 6 then '6' else if d = 7 then '7' else if d = 8 then '8' else '9'

/-- Decimal digits of `n`, most significant first; `fuel` only drives
structural recursion (`n` itself is always enough fuel). -/
def natCharsF : Nat → Nat → Str
  | 0, n => [digitChar (n % 10)]
  | f+1, n => if n < 10 then [digitChar n] else natCharsF f (n / 10) ++ [digitChar (n % 10)]

def natChars (n : Nat) : Str := natCharsF n n

/-! ### The data model (`Slide` of PresentationView.tsx / SignIn.tsx) -/

structure Slide where
  title : Str
  content : Str
  index : Nat
deriving DecidableEq

/-- The boundary-marker token `---SLIDE_SEPARATOR---`. -/
def TOKEN : Str := "---SLIDE_SEPARATOR---".data

/-- The stored-content separator sequence. -/
def SEPARATOR : Str := "\n\n---SLIDE_SEPARATOR---\n\n".data

/-- The streaming record boundary: two consecutive newlines. -/
def nlnl : Str := [nl, nl]

/-! ### The slide normalizers (`parseSlide` in both files) -/

/-- ASCII lowering, as done by the `i` flag of the title-label regex. -/
def toLowerCh (c : Char) : Char :=
  if 'A' ≤ c ∧ c ≤ 'Z' then Char.ofNat (c.toNat + 32) else c

/-- Case-insensitive anchored match of `pat` at the start of `s`. -/
def ciHasPre (pat s : Str) : Bool :=
  (pat.map toLowerCh).isPrefixOf (s.map toLowerCh)

/-- `line.replace(/^\*\*|\*\*$/g, '')`: one leading and (afterwards) one
trailing literal `**` are removed. -/
def stripStars (s : Str) : Str :=
  let s1 := if ("**".data).isPrefixOf s then s.drop 2 else s
  if ("**".data).isSuffixOf s1 then s1.dropLast.dropLast else s1

/-- `line.replace(/^Slide Title:|^Title:/i, '')`. -/
def stripLabel (s : Str) : Str :=
  if ciHasPre ("Slide Title:".data) s then s.drop (("Slide Title:".data).length)
  else if ciHasPre ("Title:".data) s then s.drop (("Title:".data).length)
  else s

/-- Truthiness of `line.trim()` in the `filter` of `parseSlide`. -/
def nonBlank (l : Str) : Bool := !(trim l).isEmpty

/-- `slideText.trim().split('\n').filter(line => line.trim())`. -/
def slideLines (slideText : Str) : List Str :=
  (splitOn [nl] (trim slideText)).filter nonBlank

/-- The title expression shared verbatim by both `parseSlide`s:
`lines[0]?.replace(…stars…).replace(…label…).trim() || `Slide ${index+1}``. -/
def titleOf (lines : List Str) (index : Nat) : Str :=
  match lines.head? with
  | none => "Slide ".data ++ natChars (index + 1)
  | some l0 =>
    let t := trim (stripLabel (stripStars l0))
    if t = [] then "Slide ".data ++ natChars (index + 1) else t

/-- `line.replace(/^[*\-•]\s*/, '• ')`. -/
def canonBullet (l : Str) : Str :=
  match l with
  | [] => []
  | c :: t =>
    if c = '*' ∨ c = '-' ∨ c = '•' then '•' :: ' ' :: t.dropWhile isWs else c :: t

/-- `parseSlide` of PresentationView.tsx (lines 34-42): bullet glyphs in
content lines are canonicalized. -/
def parseSlidePV (slideText : Str) (index : Nat) : Slide :=
  let lines := slideLines slideText
  { title := titleOf lines index
    content := joinSep [nl] ((lines.drop 1).map canonBullet)
    index := index }

/-- `parseSlide` of SignIn.tsx (lines 664-669): content lines are joined
unchanged. -/
def parseSlideSI (slideText : Str) (index : Nat) : Slide :=
  let lines := slideLines slideText
  { title := titleOf lines index
    content := joinSep [nl] (lines.drop 1)
    index := index }

/-! ### Re-hydration from stored content (`load` in PresentationView.tsx) -/

/-- `.filter(slide => slide.trim() && slide.trim() !== "---SLIDE_SEPARATOR---")`. -/
def keepPart (s : Str) : Bool := !(trim s).isEmpty && !(trim s == TOKEN)

/-- JS `Array.prototype.map` where the callback also receives the index. -/
def mapIdxF {α β : Type} (f : Nat → α → β) : Nat → List α → List β
  | _, [] => []
  | i, a :: as => f i a :: mapIdxF f (i + 1) as

def rehydrateParts (parts : List Str) : List Slide :=
  mapIdxF (fun idx s => parseSlidePV s idx) 0 (parts.filter keepPart)

/-- `data.content.split("\n\n---SLIDE_SEPARATOR---\n\n").filter(…).map(parseSlide)`. -/
def rehydrate (content : Str) : List Slide :=
  rehydrateParts (splitOn SEPARATOR content)

/-! ### Text export (`downloadAsTXT` in PresentationView.tsx) -/

/-- ``slides.map((slide, i) => `Slide ${i+1}: ${slide.title}\n\n${slide.content}`)
.join('\n\n---SLIDE_SEPARATOR---\n\n')``. -/
def downloadAsTXT (slides : List Slide) : Str :=
  joinSep SEPARATOR
    (mapIdxF
      (fun i slide =>
        "Slide ".data ++ natChars (i + 1) ++ ": ".data ++ slide.title
          ++ [nl, nl] ++ slide.content)
      0 slides)

/-! ### The streaming loop (`handleSubmit` in SignIn.tsx, lines 767-795)

`JSON.parse` plus the `.content` field access is abstracted by a decode
function: `none` models a thrown exception, `some none` a record whose
`content` is absent or otherwise falsy, `some (some c)` a record with
content string `c`. -/

abbrev Dec := Str → Option (Option Str)

structure PState where
  slides : List Slide
  err : Bool
deriving DecidableEq

/-- The body of `for (let i = 0; i < parts.length - 1; i++)` for one
complete part.  A thrown `JSON.parse` exception propagates out of the
whole loop, modelled by the absorbing `err` flag. -/
def procPart (dec : Dec) (st : PState) (part : Str) : PState :=
  if st.err then st
  else if part = [] then st
  else
    match dec part with
    | none => { st with err := true }
    | some none => st
    | some (some c) =>
      if c = [] ∨ trim c = TOKEN then st
      else { st with slides := st.slides ++ [parseSlideSI c st.slides.length] }

structure TState where
  buf : Str
  ps : PState
deriving DecidableEq

/-- One iteration of the read loop at the text level: append the decoded
chunk to `accumulatedData`, split on `"\n\n"`, process every part but the
last, keep the last as the new buffer.  After an abort the loop has
exited, so an errored state is left untouched; when the abort happens
inside this very batch, the buffer keeps the whole accumulated text (the
reassignment after the `for` is skipped), which is never read again. -/
def textStep (dec : Dec) (st : TState) (t : Str) : TState :=
  if st.ps.err then st
  else
    let bufAll := st.buf ++ t
    let parts := splitOn nlnl bufAll
    if 1 < parts.length then
      let psNew := parts.dropLast.foldl (procPart dec) st.ps
      ⟨if psNew.err then bufAll else parts.getLastD [], psNew⟩
    else ⟨bufAll, st.ps⟩

def initT : TState := ⟨[], ⟨[], false⟩⟩

/-- The whole read loop over a sequence of already-decoded text chunks. -/
def runT (dec : Dec) (chunks : List Str) : TState :=
  chunks.foldl (textStep dec) initT

/-! ### The stateful text decoder (`new TextDecoder()`,
`decoder.decode(value, { stream: true })`): the WHATWG UTF-8 decode state
machine.  The replacement character is emitted for invalid input
(non-fatal mode); a trailing incomplete sequence stays pending in the
state and, since the loop never flushes, is dropped at stream end. -/

structure U8 where
  codepoint : Nat
  needed : Nat
  seen : Nat
  lower : Nat
  upper : Nat
deriving DecidableEq

def u8Init : U8 := ⟨0, 0, 0, 0x80, 0xBF⟩

def repl : Char := Char.ofNat 0xFFFD

/-- Transition on byte `b` when no multi-byte sequence is pending. -/
def u8Initial (b : Nat) : U8 × List Char :=
  if b ≤ 0x7F then (u8Init, [Char.ofNat b])
  else if 0xC2 ≤ b ∧ b ≤ 0xDF then
    ({ codepoint := b % 32, needed := 1, seen := 0, lower := 0x80, upper := 0xBF }, [])
  else if 0xE0 ≤ b ∧ b ≤ 0xEF then
    ({ codepoint := b % 16, needed := 2, seen := 0,
       lower := if b = 0xE0 then 0xA0 else 0x80,
       upper := if b = 0xED then 0x9F else 0xBF }, [])
  else if 0xF0 ≤ b ∧ b ≤ 0xF4 then
    ({ codepoint := b % 8, needed := 3, seen := 0,
       lower := if b = 0xF0 then 0x90 else 0x80,
       upper := if b = 0xF4 then 0x8F else 0xBF }, [])
  else (u8Init, [repl])

/-- Transition of the WHATWG UTF-8 decoder on one byte: a continuation
byte out of range resets the state, emits U+FFFD and reprocesses the
byte. -/
def u8Step (st : U8) (b : Nat) : U8 × List Char :=
  if st.needed = 0 then u8Initial b
  else if st.lower ≤ b ∧ b ≤ st.upper then
    let cp := st.codepoint * 64 + b % 64
    if st.seen + 1 = st.needed then (u8Init, [Char.ofNat cp])
    else ({ codepoint := cp, needed := st.needed, seen := st.seen + 1,
            lower := 0x80, upper := 0xBF }, [])
  else
    let r := u8Initial b
    (r.1, repl :: r.2)

/-- Feed a chunk of bytes through the stateful decoder, collecting the
emitted text. -/
def u8Feed (st : U8) (bytes : List Nat) : U8 × Str :=
  bytes.foldl (fun a b => ((u8Step a.1 b).1, a.2 ++ (u8Step a.1 b).2)) (st, [])

structure BState where
  u8 : U8
  buf : Str
  ps : PState
deriving DecidableEq

/-- One iteration of the read loop on a raw byte chunk:
`accumulatedData += decoder.decode(value, { stream: true })` followed by
the split-and-process step. -/
def chunkStepB (dec : Dec) (st : BState) (chunk : List Nat) : BState :=
  if st.ps.err then st
  else
    let d := u8Feed st.u8 chunk
    let t := textStep dec ⟨st.buf, st.ps⟩ d.2
    ⟨d.1, t.buf, t.ps⟩

def initB : BState := ⟨u8Init, [], ⟨[], false⟩⟩

/-- The whole read loop over the raw byte chunks of the response body. -/
def runB (dec : Dec) (chunks : List (List Nat)) : BState :=
  chunks.foldl (chunkStepB dec) initB

/-! ### Facts about the slide normalizers -/

theorem titleOf_ne_nil (lines : List Str) (i : Nat) : titleOf lines i ≠ [] := by
  unfold titleOf
  cases lines.head? with
  | none => simp
  | some l0 =>
    simp only
    split
    · simp
    · assumption

/-- Single-character demultiplexing never leaves the separator character
inside a part or the remainder. -/
theorem demux_single_parts {c : Char} :
    ∀ s : Str, (∀ p ∈ (demux [c] s).1, c ∉ p) ∧ c ∉ (demux [c] s).2 := by
  intro s
  induction s with
  | nil => simp [demux_nil]
  | cons d t ih =>
    by_cases h : ([c]).isPrefixOf (d :: t)
    · have hd : d = c := by
        simp [List.isPrefixOf] at h
        exact h.symm
      have : demux [c] (d :: t) = ([] :: (demux [c] t).1, (demux [c] t).2) := by
        have := @demux_match [c] (by simp) d t h
        simpa using this
      rw [this]
      refine ⟨?_, ih.2⟩
      intro p hp
      rcases List.mem_cons.mp hp with rfl | hp'
      · simp
      · exact ih.1 p hp'
    · have hd : ¬ d = c := by
        simp [List.isPrefixOf] at h
        intro hcd
        exact h hcd.symm
      rw [demux_nomatch h]
      unfold cons1
      cases hp : (demux [c] t).1 with
      | nil =>
        refine ⟨by simp, ?_⟩
        simp only [List.mem_cons]
        rintro (rfl | hm)
        · exact hd rfl
        · exact ih.2 hm
      | cons p ps =>
        constructor
        · intro q hq
          rcases List.mem_cons.mp hq with rfl | hq'
          · simp only [List.mem_cons]
            rintro (rfl | hm)
            · exact hd rfl
            · exact ih.1 p (by simp [hp]) hm
          · exact ih.1 q (by simp [hp, hq'])
        · exact ih.2

theorem splitOn_single_parts {c : Char} {s : Str} :
    ∀ p ∈ splitOn [c] s, c ∉ p := by
  intro p hp
  unfold splitOn at hp
  rcases List.mem_append.mp hp with h | h
  · exact (demux_single_parts s).1 p h
  · rw [List.mem_singleton.mp h]
    exact (demux_single_parts s).2

theorem cleanB_single {c : Char} {l : Str} (h : c ∉ l) : CleanB [c] l = true := by
  induction l with
  | nil => rfl
  | cons d t ih =>
    simp only [List.mem_cons, not_or] at h
    simp only [CleanB, Bool.and_eq_true, Bool.not_eq_true']
    refine ⟨?_, ih h.2⟩
    have : ¬ c = d := fun hcd => h.1 hcd
    simp [List.isPrefixOf, this]

theorem noOccB_of_not_mem {c : Char} {l : Str} (h : c ∉ l) : NoOccB [c] l = true :=
  (noOccB_single l).mpr h

theorem splitOn_joinSep_single {c : Char} {L : List Str}
    (h : ∀ l ∈ L, c ∉ l) (hne : L ≠ []) : splitOn [c] (joinSep [c] L) = L :=
  splitOn_joinSep [c] (by simp) L
    (fun l hl => ⟨cleanB_single (h l hl), noOccB_of_not_mem (h l hl)⟩) hne

theorem slideLines_no_nl {s : Str} : ∀ l ∈ slideLines s, nl ∉ l := by
  intro l hl
  unfold slideLines at hl
  exact splitOn_single_parts l (List.mem_of_mem_filter hl)

/-- Per-line bullet canonicalization of an already-joined content string. -/
def canonLines (content : Str) : Str :=
  joinSep [nl] ((splitOn [nl] content).map canonBullet)

/-! ### Claims C6, C7, C8, C10 (slide normalizer) -/

/-- C6: the Slide Normalizer (`parseSlide` of PresentationView.tsx)
applied to the raw block with lines `**Derivatives**`, `- First point`,
`* Second point`, `• Third point` yields title `Derivatives` and the
three content lines bulleted with the canonical `• ` prefix; in general
each of the leading glyphs `*`, `-`, `•` of a content line is rewritten
to `• `. -/
theorem C6_bullet_canonicalization :
    (∀ i : Nat,
      parseSlidePV "**Derivatives**\n- First point\n* Second point\n• Third point".data i =
        { title := "Derivatives".data,
          content := "• First point\n• Second point\n• Third point".data,
          index := i }) ∧
    (∀ t : Str,
      canonBullet ('*' :: t) = '•' :: ' ' :: t.dropWhile isWs ∧
      canonBullet ('-' :: t) = '•' :: ' ' :: t.dropWhile isWs ∧
      canonBullet ('•' :: t) = '•' :: ' ' :: t.dropWhile isWs) := by
  constructor
  · intro i
    rfl
  · intro t
    refine ⟨?_, ?_, ?_⟩ <;> simp [canonBullet]

/-- C7 counterexample: on the block `"T\nA\n\nB"` the normalizer yields
content `"A\nB"`, not the claimed `"A\n\nB"` — the blank line is
discarded, not preserved. -/
theorem C7_counterexample :
    (parseSlidePV "T\nA\n\nB".data 0).content = "A\nB".data ∧
    (parseSlidePV "T\nA\n\nB".data 0).content ≠ "A\n\nB".data := by
  constructor
  · rfl
  · decide

/-- C7 amended: the normalizer's output content consists of the
*non-blank* lines of the trimmed block from the second non-blank line
onward, each with its leading bullet glyph canonicalized, in their
original relative order (the non-blank lines form a sublist of all
lines), joined with newlines; blank lines are discarded, not
preserved. -/
theorem C7_content_lines (s : Str) (i : Nat) :
    (parseSlidePV s i).content =
      joinSep [nl]
        ((((splitOn [nl] (trim s)).filter nonBlank).drop 1).map canonBullet) ∧
    ((splitOn [nl] (trim s)).filter nonBlank).Sublist (splitOn [nl] (trim s)) ∧
    ∀ l ∈ (splitOn [nl] (trim s)).filter nonBlank, trim l ≠ [] := by
  refine ⟨rfl, List.filter_sublist _, ?_⟩
  intro l hl
  have := List.of_mem_filter hl
  simpa [nonBlank, List.isEmpty_iff] using this

/-- C8: an empty (or all-whitespace) raw block at index 4 normalizes to
title `Slide 5` with empty content, and in general the title of a
normalized Slide is never the empty string. -/
theorem C8_default_title :
    parseSlidePV [] 4 = { title := "Slide 5".data, content := [], index := 4 } ∧
    parseSlidePV " \t  ".data 4 = { title := "Slide 5".data, content := [], index := 4 } ∧
    ∀ (s : Str) (i : Nat), (parseSlidePV s i).title ≠ [] := by
  refine ⟨by decide, by decide, ?_⟩
  intro s i
  exact titleOf_ne_nil (slideLines s) i

/-- C10 counterexample: the two `parseSlide` implementations disagree on
the block `"T\n- x"`: the streaming one (SignIn.tsx) keeps the content
line `- x`, the viewing one (PresentationView.tsx) canonicalizes it to
`• x`. -/
theorem C10_counterexample :
    parseSlideSI "T\n- x".data 0 ≠ parseSlidePV "T\n- x".data 0 := by
  decide

/-- C10 amended: the two `parseSlide` implementations agree on the title
and the index for every input, but not on the content: the viewing-path
content is the per-line bullet canonicalization of the streaming-path
content, and the two differ whenever some content line starts with a
bullet glyph. -/
theorem C10_partial_equivalence (s : Str) (i : Nat) :
    (parseSlideSI s i).title = (parseSlidePV s i).title ∧
    (parseSlideSI s i).index = (parseSlidePV s i).index ∧
    (parseSlidePV s i).content = canonLines (parseSlideSI s i).content := by
  refine ⟨rfl, rfl, ?_⟩
  show joinSep [nl] (((slideLines s).drop 1).map canonBullet) =
    canonLines (joinSep [nl] ((slideLines s).drop 1))
  cases hL : (slideLines s).drop 1 with
  | nil => rfl
  | cons l ls =>
    unfold canonLines
    rw [splitOn_joinSep_single (c := nl) ?hmem (by simp)]
    intro x hx
    have hx' : x ∈ slideLines s := List.mem_of_mem_drop (n := 1) (by rw [hL]; exact hx)
    exact slideLines_no_nl x hx'

/-! ### Facts about the record-processing loop -/

theorem procPart_err {dec : Dec} {ps : PState} {part : Str} (h : ps.err = true) :
    procPart dec ps part = ps := by
  unfold procPart
  rw [if_pos h]

theorem foldl_procPart_err {dec : Dec} :
    ∀ (parts : List Str) (ps : PState), ps.err = true →
      parts.foldl (procPart dec) ps = ps := by
  intro parts
  induction parts with
  | nil => intro ps _; rfl
  | cons p rest ih =>
    intro ps h
    simp only [List.foldl_cons, procPart_err h]
    exact ih ps h

theorem procPart_bad {dec : Dec} {ps : PState} {bad : Str}
    (he : ps.err = false) (hb : bad ≠ []) (hd : dec bad = none) :
    procPart dec ps bad = { ps with err := true } := by
  unfold procPart
  rw [if_neg (by simp [he]), if_neg hb, hd]

theorem procPart_token {dec : Dec} {ps : PState} {p c : Str}
    (hd : dec p = some (some c)) (hc : trim c = TOKEN) :
    procPart dec ps p = ps := by
  unfold procPart
  by_cases he : ps.err = true
  · rw [if_pos he]
  · rw [if_neg he]
    by_cases hp : p = []
    · rw [if_pos hp]
    · rw [if_neg hp, hd]
      have : c = [] ∨ trim c = TOKEN := Or.inr hc
      exact if_pos this

theorem splitOn_dropLast (sep s : Str) : (splitOn sep s).dropLast = (demux sep s).1 := by
  simp [splitOn]

theorem splitOn_getLastD (sep s : Str) : (splitOn sep s).getLastD [] = (demux sep s).2 := by
  simp [splitOn]

theorem splitOn_length (sep s : Str) : (splitOn sep s).length = (demux sep s).1.length + 1 := by
  simp [splitOn]

/-! ### Claims C2 and C4 (record decoder behaviour) -/

/-- C2 counterexample: in the stream `A\n\nbad\n\nB\n\n` whose middle
record fails to decode, the pipeline does *not* keep the surrounding
valid records: only the record before the failure is appended; the
failure aborts the loop, so `B` is lost and the error is surfaced as a
failure of the whole generation.  (`decSample` stands for `JSON.parse`
followed by the `.content` access: the payload `bad` is not valid JSON
and throws, every other payload decodes to a record whose content is the
payload itself.) -/
def decSample : Dec := fun p => if p = "bad".data then none else some (some p)

theorem C2_counterexample :
    (runT decSample ["A\n\nbad\n\nB\n\n".data]).ps.slides =
      [{ title := "A".data, content := [], index := 0 }] ∧
    (runT decSample ["A\n\nbad\n\nB\n\n".data]).ps.err = true := by
  constructor
  · decide
  · decide

/-- C2 amended: a record that fails to decode aborts the processing
loop: the records before it are processed normally (and their Slides
kept, in order), the failing record and every record after it are not
appended, and the error flag is raised. -/
theorem C2_decode_failure_aborts (dec : Dec) (ps : PState)
    (pre post : List Str) (bad : Str) (hb : bad ≠ []) (hd : dec bad = none) :
    ((pre ++ bad :: post).foldl (procPart dec) ps).slides =
      (pre.foldl (procPart dec) ps).slides ∧
    ((pre ++ bad :: post).foldl (procPart dec) ps).err = true := by
  rw [List.foldl_append]
  set q := pre.foldl (procPart dec) ps with hq
  by_cases he : q.err = true
  · rw [List.foldl_cons, procPart_err he, foldl_procPart_err post q he]
    exact ⟨rfl, he⟩
  · have he' : q.err = false := by simpa using he
    rw [List.foldl_cons, procPart_bad he' hb hd,
      foldl_procPart_err post _ (by rfl)]
    exact ⟨rfl, rfl⟩

theorem C2_decode_failure_aborts_witness :
    ((["A".data] ++ "bad".data :: ["B".data]).foldl (procPart decSample)
        { slides := [], err := false }).slides =
      (["A".data].foldl (procPart decSample) { slides := [], err := false }).slides ∧
    ((["A".data] ++ "bad".data :: ["B".data]).foldl (procPart decSample)
        { slides := [], err := false }).err = true :=
  C2_decode_failure_aborts decSample { slides := [], err := false }
    ["A".data] ["B".data] "bad".data (by decide) (by decide)

/-- C4: a record whose decoded `content` trims to the boundary-marker
token is a no-op on the streaming path (the processing state is exactly
as if the record were absent, so the index counter does not advance),
and a stored part trimming to the token is filtered out on re-hydration
(subsequent slides get the same indices as if it were absent). -/
theorem C4_token_noop :
    (∀ (dec : Dec) (ps : PState) (pre post : List Str) (p c : Str),
      dec p = some (some c) → trim c = TOKEN →
      (pre ++ p :: post).foldl (procPart dec) ps =
        (pre ++ post).foldl (procPart dec) ps) ∧
    (∀ (parts1 parts2 : List Str) (q : Str), trim q = TOKEN →
      rehydrateParts (parts1 ++ q :: parts2) = rehydrateParts (parts1 ++ parts2)) := by
  constructor
  · intro dec ps pre post p c hd hc
    rw [List.foldl_append, List.foldl_append, List.foldl_cons, procPart_token hd hc]
  · intro parts1 parts2 q hq
    unfold rehydrateParts
    have hk : keepPart q = false := by
      unfold keepPart
      have : (trim q == TOKEN) = true := by
        rw [hq]
        exact beq_self_eq_true TOKEN
      rw [this]
      simp
    rw [List.filter_append, List.filter_append, List.filter_cons, hk]
    simp

theorem C4_token_noop_witness :
    ((["A".data] ++ TOKEN :: ["B".data]).foldl (procPart decSample)
        { slides := [], err := false } =
      (["A".data] ++ ["B".data]).foldl (procPart decSample)
        { slides := [], err := false }) ∧
    (rehydrateParts (["x".data] ++ TOKEN :: ["y".data]) =
      rehydrateParts (["x".data] ++ ["y".data])) :=
  ⟨C4_token_noop.1 decSample { slides := [], err := false }
      ["A".data] ["B".data] TOKEN TOKEN (by decide) (by decide),
    C4_token_noop.2 ["x".data] ["y".data] TOKEN (by decide)⟩

/-! ### Claim C9 (contiguous indices) -/

/-- The index invariant: the indices stored in the slide list are
exactly the positions `0, 1, 2, …`. -/
def idxOk (ps : PState) : Prop :=
  ps.slides.map Slide.index = List.range ps.slides.length

theorem procPart_idxOk {dec : Dec} {ps : PState} {part : Str} (h : idxOk ps) :
    idxOk (procPart dec ps part) := by
  unfold procPart
  split
  · exact h
  · split
    · exact h
    · split
      · exact h
      · exact h
      · split
        · exact h
        · unfold idxOk at h ⊢
          simp only [List.map_append, List.length_append, List.map_cons,
            List.map_nil, List.length_cons, List.length_nil]
          rw [h]
          show List.range ps.slides.length ++ [ps.slides.length] = _
          rw [← List.range_succ]

theorem foldl_procPart_idxOk {dec : Dec} :
    ∀ (parts : List Str) (ps : PState), idxOk ps →
      idxOk (parts.foldl (procPart dec) ps) := by
  intro parts
  induction parts with
  | nil => intro ps h; exact h
  | cons p rest ih =>
    intro ps h
    exact ih _ (procPart_idxOk h)

theorem textStep_idxOk {dec : Dec} {st : TState} {t : Str} (h : idxOk st.ps) :
    idxOk (textStep dec st t).ps := by
  unfold textStep
  by_cases he : st.ps.err = true
  · rw [if_pos he]; exact h
  · rw [if_neg he]
    simp only
    by_cases hl : 1 < (splitOn nlnl (st.buf ++ t)).length
    · rw [if_pos hl]
      exact foldl_procPart_idxOk _ _ h
    · rw [if_neg hl]
      exact h

theorem chunkStepB_idxOk {dec : Dec} {st : BState} {chunk : List Nat}
    (h : idxOk st.ps) : idxOk (chunkStepB dec st chunk).ps := by
  unfold chunkStepB
  by_cases he : st.ps.err = true
  · rw [if_pos he]; exact h
  · rw [if_neg he]
    exact textStep_idxOk h

theorem foldl_chunkStepB_idxOk {dec : Dec} :
    ∀ (chunks : List (List Nat)) (st : BState), idxOk st.ps →
      idxOk ((chunks.foldl (chunkStepB dec) st)).ps := by
  intro chunks
  induction chunks with
  | nil => intro st h; exact h
  | cons c rest ih =>
    intro st h
    exact ih _ (chunkStepB_idxOk h)

theorem mapIdxF_parse_indices :
    ∀ (parts : List Str) (k : Nat),
      (mapIdxF (fun idx s => parseSlidePV s idx) k parts).map Slide.index =
        List.range' k parts.length := by
  intro parts
  induction parts with
  | nil => intro k; rfl
  | cons p rest ih =>
    intro k
    simp only [mapIdxF, List.map_cons, List.length_cons, List.range'_succ]
    rw [ih (k + 1)]
    rfl

theorem mapIdxF_length {α β : Type} (f : Nat → α → β) :
    ∀ (k : Nat) (l : List α), (mapIdxF f k l).length = l.length := by
  intro k l
  induction l generalizing k with
  | nil => rfl
  | cons a as ih => simp [mapIdxF, ih]

/-- C9: within one Presentation the slide indices always form the
contiguous sequence `0, 1, 2, …`: this holds for the state of the
streaming loop after any sequence of chunks (each appended Slide gets
index = current count), and for the list produced by re-hydration from
stored content. -/
theorem C9_contiguous_indices :
    (∀ (dec : Dec) (chunks : List (List Nat)),
      (runB dec chunks).ps.slides.map Slide.index =
        List.range (runB dec chunks).ps.slides.length) ∧
    (∀ content : Str,
      (rehydrate content).map Slide.index = List.range (rehydrate content).length) := by
  constructor
  · intro dec chunks
    exact foldl_chunkStepB_idxOk chunks initB (by rfl)
  · intro content
    unfold rehydrate rehydrateParts
    rw [mapIdxF_parse_indices, mapIdxF_length, List.range_eq_range']

/-! ### Claim C5 (trailing partial record discarded) -/

/-- C5: on stream end, a non-empty unterminated leftover after the last
complete record is discarded: feeding `s ++ r`, where `s` ends exactly at
a record boundary and `r` contains no boundary marker, leaves the
processing state (slides and error flag alike) identical to feeding `s`
alone — the trailing `r` is never decoded, never emitted and surfaces no
error. -/
theorem textStep_apply (dec : Dec) (st : TState) (t : Str) (he : st.ps.err = false) :
    textStep dec st t =
      if 1 < (splitOn nlnl (st.buf ++ t)).length then
        ⟨if ((splitOn nlnl (st.buf ++ t)).dropLast.foldl (procPart dec) st.ps).err
            then st.buf ++ t
            else (splitOn nlnl (st.buf ++ t)).getLastD [],
          (splitOn nlnl (st.buf ++ t)).dropLast.foldl (procPart dec) st.ps⟩
      else ⟨st.buf ++ t, st.ps⟩ := by
  unfold textStep
  rw [if_neg (by rw [he]; simp)]

theorem C5_trailing_discarded (dec : Dec) (s r : Str)
    (hs : (demux nlnl s).2 = []) (hr : NoOccB nlnl r = true) :
    (runT dec [s ++ r]).ps = (runT dec [s]).ps := by
  unfold runT
  simp only [List.foldl_cons, List.foldl_nil]
  rw [textStep_apply dec initT _ (by rfl), textStep_apply dec initT _ (by rfl)]
  simp only [show initT.buf = [] from rfl, List.nil_append]
  have hsr : demux nlnl (s ++ r) = ((demux nlnl s).1, r) := by
    rw [demux_append nlnl (by simp [nlnl]) s.length s (le_refl _) r, hs]
    rw [List.nil_append, demux_noOcc r hr]
    simp
  have hlen_sr : (splitOn nlnl (s ++ r)).length = (demux nlnl s).1.length + 1 := by
    rw [splitOn_length, hsr]
  have hlen_s : (splitOn nlnl s).length = (demux nlnl s).1.length + 1 := by
    rw [splitOn_length]
  by_cases hp : (demux nlnl s).1 = []
  · have hc1 : ¬ 1 < (splitOn nlnl (s ++ r)).length := by rw [hlen_sr, hp]; simp
    have hc2 : ¬ 1 < (splitOn nlnl s).length := by rw [hlen_s, hp]; simp
    rw [if_neg hc1, if_neg hc2]
  · have hplen : 0 < (demux nlnl s).1.length := List.length_pos.mpr hp
    have hc1 : 1 < (splitOn nlnl (s ++ r)).length := by rw [hlen_sr]; omega
    have hc2 : 1 < (splitOn nlnl s).length := by rw [hlen_s]; omega
    rw [if_pos hc1, if_pos hc2]
    show ((splitOn nlnl (s ++ r)).dropLast.foldl (procPart dec) initT.ps) =
      ((splitOn nlnl s).dropLast.foldl (procPart dec) initT.ps)
    rw [splitOn_dropLast, splitOn_dropLast, hsr]

theorem C5_trailing_discarded_witness :
    (demux nlnl "A\n\n".data).2 = [] ∧ NoOccB nlnl "trail".data = true ∧
    (runT decSample ["A\n\n".data ++ "trail".data]).ps =
      (runT decSample ["A\n\n".data]).ps :=
  ⟨by decide, by decide,
    C5_trailing_discarded decSample "A\n\n".data "trail".data (by decide) (by decide)⟩

/-! ### Claim C3 (chunk-boundary independence) -/

theorem nlnl_ne_nil : nlnl ≠ [] := by simp [nlnl]

theorem textStep_demux (dec : Dec) (st : TState) (t : Str) (he : st.ps.err = false) :
    textStep dec st t =
      if (demux nlnl (st.buf ++ t)).1 = [] then ⟨st.buf ++ t, st.ps⟩
      else
        ⟨if ((demux nlnl (st.buf ++ t)).1.foldl (procPart dec) st.ps).err
            then st.buf ++ t
            else (demux nlnl (st.buf ++ t)).2,
          (demux nlnl (st.buf ++ t)).1.foldl (procPart dec) st.ps⟩ := by
  rw [textStep_apply dec st t he]
  by_cases hp : (demux nlnl (st.buf ++ t)).1 = []
  · have hlen : ¬ 1 < (splitOn nlnl (st.buf ++ t)).length := by
      rw [splitOn_length, hp]; simp
    rw [if_neg hlen, if_pos hp]
  · have hlen : 1 < (splitOn nlnl (st.buf ++ t)).length := by
      rw [splitOn_length]
      have := List.length_pos.mpr hp
      omega
    rw [if_pos hlen, if_neg hp, splitOn_dropLast, splitOn_getLastD]

theorem textStep_frozen (dec : Dec) {st : TState} (t : Str) (he : st.ps.err = true) :
    textStep dec st t = st := by
  unfold textStep
  rw [if_pos he]

/-- Feeding two text chunks in succession is the same as feeding their
concatenation, up to the dead buffer value after an abort: the
processing states agree, and when no abort happened the whole states
agree. -/
theorem textStep_append (dec : Dec) (st : TState) (a b : Str) :
    (textStep dec (textStep dec st a) b).ps = (textStep dec st (a ++ b)).ps ∧
    ((textStep dec st (a ++ b)).ps.err = false →
      textStep dec (textStep dec st a) b = textStep dec st (a ++ b)) := by
  by_cases he : st.ps.err = true
  · rw [textStep_frozen dec a he, textStep_frozen dec b he,
      textStep_frozen dec (a ++ b) he]
    exact ⟨by simp, by simp⟩
  · have he' : st.ps.err = false := by simpa using he
    have hD : demux nlnl (st.buf ++ (a ++ b)) =
        ((demux nlnl (st.buf ++ a)).1 ++
            (demux nlnl ((demux nlnl (st.buf ++ a)).2 ++ b)).1,
          (demux nlnl ((demux nlnl (st.buf ++ a)).2 ++ b)).2) := by
      rw [← List.append_assoc]
      exact demux_append nlnl nlnl_ne_nil (st.buf ++ a).length _ (le_refl _) b
    rw [textStep_demux dec st a he']
    by_cases hp1 : (demux nlnl (st.buf ++ a)).1 = []
    · have hr1 : (demux nlnl (st.buf ++ a)).2 = st.buf ++ a :=
        demux_parts_nil nlnl_ne_nil _ hp1
    
      rw [if_pos hp1]
      have hsame : textStep dec ⟨st.buf ++ a, st.ps⟩ b = textStep dec st (a ++ b) := by
        rw [textStep_demux dec ⟨st.buf ++ a, st.ps⟩ b he',
          textStep_demux dec st (a ++ b) he']
        simp only [List.append_assoc]
      rw [hsame]
      exact ⟨by simp, by simp⟩
    · rw [if_neg hp1]
      by_cases herr1 : ((demux nlnl (st.buf ++ a)).1.foldl (procPart dec) st.ps).err = true
      · rw [if_pos herr1]
        have hfrozen : textStep dec
            ⟨st.buf ++ a, (demux nlnl (st.buf ++ a)).1.foldl (procPart dec) st.ps⟩ b =
            ⟨st.buf ++ a, (demux nlnl (st.buf ++ a)).1.foldl (procPart dec) st.ps⟩ :=
          textStep_frozen dec b herr1
        rw [hfrozen, textStep_demux dec st (a ++ b) he', hD]
        have hne : ¬ ((demux nlnl (st.buf ++ a)).1 ++
            (demux nlnl ((demux nlnl (st.buf ++ a)).2 ++ b)).1) = [] := by
          simp [hp1]
        rw [if_neg hne, List.foldl_append,
          foldl_procPart_err _ _ herr1]
        refine ⟨rfl, ?_⟩
        intro hcontra
        rw [herr1] at hcontra
        cases hcontra
      · have herr1' : ((demux nlnl (st.buf ++ a)).1.foldl (procPart dec) st.ps).err = false := by
          simpa using herr1
        rw [if_neg herr1]
        rw [textStep_demux dec
          ⟨(demux nlnl (st.buf ++ a)).2,
            (demux nlnl (st.buf ++ a)).1.foldl (procPart dec) st.ps⟩ b herr1',
          textStep_demux dec st (a ++ b) he', hD]
        have hne : ¬ ((demux nlnl (st.buf ++ a)).1 ++
            (demux nlnl ((demux nlnl (st.buf ++ a)).2 ++ b)).1) = [] := by
          simp [hp1]
        rw [if_neg hne, List.foldl_append]
        by_cases hp2 : (demux nlnl ((demux nlnl (st.buf ++ a)).2 ++ b)).1 = []
        · have hr2 : (demux nlnl ((demux nlnl (st.buf ++ a)).2 ++ b)).2 =
              (demux nlnl (st.buf ++ a)).2 ++ b :=
            demux_parts_nil nlnl_ne_nil _ hp2
          rw [if_pos hp2]
          simp only [hp2, List.foldl_nil, hr2]
          rw [if_neg (by rw [herr1']; simp)]
          exact ⟨by simp, by simp⟩
        · rw [if_neg hp2]
          simp only
          by_cases herr2 :
            ((demux nlnl ((demux nlnl (st.buf ++ a)).2 ++ b)).1.foldl (procPart dec)
              ((demux nlnl (st.buf ++ a)).1.foldl (procPart dec) st.ps)).err = true
          · rw [if_pos herr2, if_pos herr2]
            refine ⟨by simp, ?_⟩
            intro hcontra
            rw [herr2] at hcontra
            cases hcontra
          · rw [if_neg herr2, if_neg herr2]
            exact ⟨by simp, by simp⟩

theorem u8Feed_out (st : U8) :
    ∀ (bytes : List Nat) (o : Str),
      bytes.foldl (fun a b => ((u8Step a.1 b).1, a.2 ++ (u8Step a.1 b).2)) (st, o) =
        ((u8Feed st bytes).1, o ++ (u8Feed st bytes).2) := by
  intro bytes
  induction bytes generalizing st with
  | nil => intro o; simp [u8Feed]
  | cons c bs ih =>
    intro o
    show List.foldl _ ((u8Step st c).1, o ++ (u8Step st c).2) bs = _
    rw [ih (u8Step st c).1 (o ++ (u8Step st c).2)]
    have hfeed : u8Feed st (c :: bs) =
        ((u8Feed (u8Step st c).1 bs).1,
          (u8Step st c).2 ++ (u8Feed (u8Step st c).1 bs).2) := by
      show List.foldl _ ((u8Step st c).1, [] ++ (u8Step st c).2) bs = _
      rw [ih (u8Step st c).1 ([] ++ (u8Step st c).2)]
      simp
    rw [hfeed]
    simp

/-- The stateful decoder is insensitive to chunking: feeding two byte
chunks in succession decodes the same text as feeding their
concatenation. -/
theorem u8Feed_append (st : U8) (a b : List Nat) :
    u8Feed st (a ++ b) =
      ((u8Feed (u8Feed st a).1 b).1,
        (u8Feed st a).2 ++ (u8Feed (u8Feed st a).1 b).2) := by
  show List.foldl _ (st, []) (a ++ b) = _
  rw [List.foldl_append]
  have h1 : List.foldl (fun (a : U8 × Str) b => ((u8Step a.1 b).1, a.2 ++ (u8Step a.1 b).2))
      (st, []) a = ((u8Feed st a).1, (u8Feed st a).2) := by
    rw [u8Feed_out st a []]
    simp
  rw [h1, u8Feed_out (u8Feed st a).1 b (u8Feed st a).2]

theorem chunkStepB_frozen (dec : Dec) {st : BState} (chunk : List Nat)
    (he : st.ps.err = true) : chunkStepB dec st chunk = st := by
  unfold chunkStepB
  rw [if_pos he]

/-- The invariant carried by the byte-level loop state: unless the loop
has aborted, the buffer holds no record boundary. -/
def InvB (st : BState) : Prop := st.ps.err = true ∨ NoOccB nlnl st.buf = true

theorem chunkStepB_nil (dec : Dec) (st : BState) (hInv : InvB st) :
    chunkStepB dec st [] = st := by
  by_cases he : st.ps.err = true
  · exact chunkStepB_frozen dec [] he
  · have he' : st.ps.err = false := by simpa using he
    have hno : NoOccB nlnl st.buf = true := by
      rcases hInv with h | h
      · exact absurd h he
      · exact h
    unfold chunkStepB
    rw [if_neg he]
    have hfeed : u8Feed st.u8 [] = (st.u8, []) := rfl
    rw [hfeed]
    simp only
    rw [textStep_demux dec ⟨st.buf, st.ps⟩ [] he']
    simp only [List.append_nil]
    rw [if_pos (by rw [demux_noOcc st.buf hno])]

theorem textStep_ps_err_of (dec : Dec) (st : TState) (t : Str)
    (he : st.ps.err = false) (hT : (textStep dec st t).ps.err = true) :
    (textStep dec st t).buf = st.buf ++ t := by
  rw [textStep_demux dec st t he] at hT ⊢
  by_cases hp : (demux nlnl (st.buf ++ t)).1 = []
  · rw [if_pos hp] at hT
    simp at hT
    rw [he] at hT
    cases hT
  · rw [if_neg hp] at hT ⊢
    simp only at hT
    rw [if_pos hT]

theorem InvB_chunkStepB (dec : Dec) (st : BState) (chunk : List Nat)
    (hInv : InvB st) : InvB (chunkStepB dec st chunk) := by
  by_cases he : st.ps.err = true
  · rw [chunkStepB_frozen dec chunk he]
    exact hInv
  · have he' : st.ps.err = false := by simpa using he
    unfold chunkStepB
    rw [if_neg he]
    simp only
    set t := (u8Feed st.u8 chunk).2 with ht
    by_cases hT : (textStep dec ⟨st.buf, st.ps⟩ t).ps.err = true
    · exact Or.inl hT
    · right
      rw [textStep_demux dec ⟨st.buf, st.ps⟩ t he'] at hT ⊢
      by_cases hp : (demux nlnl (st.buf ++ t)).1 = []
      · rw [if_pos hp]
        have : (demux nlnl (st.buf ++ t)).2 = st.buf ++ t :=
          demux_parts_nil nlnl_ne_nil _ hp
        rw [← this]
        exact demux_rem_noOcc nlnl nlnl_ne_nil (st.buf ++ t).length _ (le_refl _)
      · rw [if_neg hp] at hT ⊢
        simp only at hT ⊢
        have herr : ((demux nlnl (st.buf ++ t)).1.foldl (procPart dec)
            st.ps).err = false := by
          simpa using hT
        rw [if_neg (by rw [herr]; simp)]
        exact demux_rem_noOcc nlnl nlnl_ne_nil (st.buf ++ t).length _ (le_refl _)

/-- Feeding two byte chunks in succession versus their concatenation:
the processing states agree, and when no abort happened the whole loop
states agree. -/
theorem chunkStepB_append (dec : Dec) (st : BState) (a b : List Nat) :
    (chunkStepB dec (chunkStepB dec st a) b).ps = (chunkStepB dec st (a ++ b)).ps ∧
    ((chunkStepB dec st (a ++ b)).ps.err = false →
      chunkStepB dec (chunkStepB dec st a) b = chunkStepB dec st (a ++ b)) := by
  by_cases he : st.ps.err = true
  · rw [chunkStepB_frozen dec a he, chunkStepB_frozen dec b he,
      chunkStepB_frozen dec (a ++ b) he]
    exact ⟨by simp, by simp⟩
  · have he' : st.ps.err = false := by simpa using he
    have hstep_a : chunkStepB dec st a =
        ⟨(u8Feed st.u8 a).1, (textStep dec ⟨st.buf, st.ps⟩ (u8Feed st.u8 a).2).buf,
          (textStep dec ⟨st.buf, st.ps⟩ (u8Feed st.u8 a).2).ps⟩ := by
      unfold chunkStepB
      rw [if_neg he]
    have hstep_ab : chunkStepB dec st (a ++ b) =
        ⟨(u8Feed (u8Feed st.u8 a).1 b).1,
          (textStep dec ⟨st.buf, st.ps⟩
            ((u8Feed st.u8 a).2 ++ (u8Feed (u8Feed st.u8 a).1 b).2)).buf,
          (textStep dec ⟨st.buf, st.ps⟩
            ((u8Feed st.u8 a).2 ++ (u8Feed (u8Feed st.u8 a).1 b).2)).ps⟩ := by
      unfold chunkStepB
      rw [if_neg he, u8Feed_append]
    set ta := (u8Feed st.u8 a).2 with hta
    set tb := (u8Feed (u8Feed st.u8 a).1 b).2 with htb
    have happ := textStep_append dec ⟨st.buf, st.ps⟩ ta tb
    by_cases hT1 : (textStep dec ⟨st.buf, st.ps⟩ ta).ps.err = true
    · have hfrozen : chunkStepB dec (chunkStepB dec st a) b = chunkStepB dec st a := by
        rw [hstep_a]
        exact chunkStepB_frozen dec b hT1
      rw [hfrozen, hstep_a, hstep_ab]
      have hT2 : (textStep dec (textStep dec ⟨st.buf, st.ps⟩ ta) tb) =
          textStep dec ⟨st.buf, st.ps⟩ ta :=
        textStep_frozen dec tb hT1
      constructor
      · show (textStep dec ⟨st.buf, st.ps⟩ ta).ps = _
        rw [← happ.1, hT2]
      · intro hcontra
        simp only at hcontra
        rw [← happ.1, hT2, hT1] at hcontra
        cases hcontra
    · have hT1' : (textStep dec ⟨st.buf, st.ps⟩ ta).ps.err = false := by simpa using hT1
      have hstep2 : chunkStepB dec (chunkStepB dec st a) b =
          ⟨(u8Feed (u8Feed st.u8 a).1 b).1,
            (textStep dec (textStep dec ⟨st.buf, st.ps⟩ ta) tb).buf,
            (textStep dec (textStep dec ⟨st.buf, st.ps⟩ ta) tb).ps⟩ := by
        rw [hstep_a]
        unfold chunkStepB
        simp [hT1']
      rw [hstep2, hstep_ab]
      constructor
      · exact happ.1
      · intro herrAll
        simp only at herrAll
        have := happ.2 herrAll
        rw [this]

theorem foldl_chunkStepB_flatten (dec : Dec) :
    ∀ (cs : List (List Nat)) (st : BState), InvB st →
      ((cs.foldl (chunkStepB dec) st).ps = (chunkStepB dec st cs.flatten).ps) ∧
      ((chunkStepB dec st cs.flatten).ps.err = false →
        cs.foldl (chunkStepB dec) st = chunkStepB dec st cs.flatten) := by
  intro cs
  induction cs with
  | nil =>
    intro st hInv
    rw [show (([] : List (List Nat)).flatten) = [] from rfl,
      chunkStepB_nil dec st hInv]
    exact ⟨rfl, fun _ => rfl⟩
  | cons c cs' ih =>
    intro st hInv
    rw [List.foldl_cons, show ((c :: cs').flatten) = c ++ cs'.flatten from rfl]
    have hInv' : InvB (chunkStepB dec st c) := InvB_chunkStepB dec st c hInv
    have hihere := ih (chunkStepB dec st c) hInv'
    have happ := chunkStepB_append dec st c cs'.flatten
    constructor
    · rw [hihere.1, happ.1]
    · intro herr
      have herr2 : (chunkStepB dec (chunkStepB dec st c) cs'.flatten).ps.err = false := by
        rw [happ.1, herr]
      rw [hihere.2 herr2, happ.2 herr]

/-- C3: chunk-boundary independence.  Running the streaming read loop
— the stateful UTF-8 decode followed by the split-and-process step — on
any two chunkings of the same byte stream (including chunkings that cut
a multi-byte character in half) produces the identical Slide sequence
and the identical error outcome. -/
theorem C3_chunking_independence (dec : Dec) (c1 c2 : List (List Nat))
    (h : c1.flatten = c2.flatten) :
    (runB dec c1).ps.slides = (runB dec c2).ps.slides ∧
    (runB dec c1).ps.err = (runB dec c2).ps.err := by
  have hInv : InvB initB := Or.inr (by decide)
  have h1 := (foldl_chunkStepB_flatten dec c1 initB hInv).1
  have h2 := (foldl_chunkStepB_flatten dec c2 initB hInv).1
  unfold runB
  rw [h1, h2, h]
  exact ⟨rfl, rfl⟩

theorem C3_chunking_independence_witness :
    ([[0x48, 0xC3], [0xA9, 0x0A, 0x0A]] : List (List Nat)).flatten =
      ([[0x48, 0xC3, 0xA9, 0x0A, 0x0A]] : List (List Nat)).flatten ∧
    ((runB decSample [[0x48, 0xC3], [0xA9, 0x0A, 0x0A]]).ps.slides =
        (runB decSample [[0x48, 0xC3, 0xA9, 0x0A, 0x0A]]).ps.slides ∧
      (runB decSample [[0x48, 0xC3], [0xA9, 0x0A, 0x0A]]).ps.err =
        (runB decSample [[0x48, 0xC3, 0xA9, 0x0A, 0x0A]]).ps.err) :=
  ⟨by decide,
    C3_chunking_independence decSample
      [[0x48, 0xC3], [0xA9, 0x0A, 0x0A]] [[0x48, 0xC3, 0xA9, 0x0A, 0x0A]] (by decide)⟩

/-! ### Claim C1 (export / re-parse round trip): auxiliary character and
string facts -/

def isDigitCh (c : Char) : Bool :=
  c = '0' || c = '1' || c = '2' || c = '3' || c = '4' ||
  c = '5' || c = '6' || c = '7' || c = '8' || c = '9'

theorem digitChar_digit (d : Nat) : isDigitCh (digitChar d) = true := by
  unfold digitChar
  repeat' split
  all_goals decide

theorem natCharsF_digits :
    ∀ f n, ∀ c ∈ natCharsF f n, isDigitCh c = true := by
  intro f
  induction f with
  | zero =>
    intro n c hc
    simp only [natCharsF, List.mem_singleton] at hc
    rw [hc]
    exact digitChar_digit _
  | succ f ih =>
    intro n c hc
    simp only [natCharsF] at hc
    split at hc
    · simp only [List.mem_singleton] at hc
      rw [hc]
      exact digitChar_digit _
    · rcases List.mem_append.mp hc with h | h
      · exact ih _ c h
      · simp only [List.mem_singleton] at h
        rw [h]
        exact digitChar_digit _

theorem natChars_digits (n : Nat) : ∀ c ∈ natChars n, isDigitCh c = true :=
  natCharsF_digits n n

theorem natCharsF_ne_nil : ∀ f n, natCharsF f n ≠ [] := by
  intro f
  induction f with
  | zero => intro n; simp [natCharsF]
  | succ f ih =>
    intro n
    simp only [natCharsF]
    split
    · simp
    · simp

theorem natChars_ne_nil (n : Nat) : natChars n ≠ [] := natCharsF_ne_nil n n

/-- The facts needed about decimal digit characters. -/
theorem digit_facts {c : Char} (h : isDigitCh c = true) :
    isWs c = false ∧ c ≠ nl ∧ toLowerCh c = c ∧ c ≠ '*' ∧ c ≠ '-' ∧
      toLowerCh c ≠ 't' := by
  simp only [isDigitCh, Bool.or_eq_true, decide_eq_true_eq] at h
  rcases h with ((((((((h|h)|h)|h)|h)|h)|h)|h)|h)|h <;> subst h <;>
    exact ⟨by decide, by decide, by decide, by decide, by decide, by decide⟩

theorem dropWhile_of_headD {l : Str} (h : isWs (l.headD 'x') = false) :
    l.dropWhile isWs = l := by
  cases l with
  | nil => rfl
  | cons c t =>
    simp only [List.headD_cons] at h
    rw [List.dropWhile_cons, if_neg (by rw [h]; simp)]

theorem trim_eq_self {t : Str} (hh : isWs (t.headD 'x') = false)
    (hl : isWs (t.reverse.headD 'x') = false) : trim t = t := by
  unfold trim trimR
  rw [dropWhile_of_headD hh, dropWhile_of_headD hl, List.reverse_reverse]

theorem trim_ne_nil {t : Str} (hne : t ≠ []) (hh : isWs (t.headD 'x') = false) :
    trim t ≠ [] := by
  cases t with
  | nil => exact absurd rfl hne
  | cons c w =>
    simp only [List.headD_cons] at hh
    unfold trim trimR
    rw [List.dropWhile_cons, if_neg (by rw [hh]; simp)]
    intro hcontra
    rw [List.reverse_eq_nil_iff] at hcontra
    have := List.dropWhile_eq_nil_iff.mp hcontra c (by simp)
    rw [hh] at this
    cases this

theorem headD_append_left {a b : Str} (d : Char) (h : a ≠ []) :
    (a ++ b).headD d = a.headD d := by
  cases a with
  | nil => exact absurd rfl h
  | cons c t => rfl

theorem reverse_headD_append {a b : Str} (d : Char) (h : b ≠ []) :
    (a ++ b).reverse.headD d = b.reverse.headD d := by
  rw [List.reverse_append]
  exact headD_append_left d (by simpa using h)

theorem isPrefixOf_append_same :
    ∀ (pre p s : Str), (pre ++ p).isPrefixOf (pre ++ s) = p.isPrefixOf s := by
  intro pre
  induction pre with
  | nil => intro p s; rfl
  | cons c t ih =>
    intro p s
    show ((c :: (t ++ p)).isPrefixOf (c :: (t ++ s))) = _
    simp only [List.isPrefixOf, beq_self_eq_true, Bool.true_and]
    exact ih p s

theorem suffix_append_cases {α : Type} {t a b : List α} (h : t <:+ a ++ b) :
    t <:+ b ∨ ∃ a', a' <:+ a ∧ t = a' ++ b := by
  have hd := List.suffix_iff_eq_drop.mp h
  set k := (a ++ b).length - t.length with hk
  by_cases hka : a.length ≤ k
  · left
    rw [hd, List.drop_append_eq_append_drop, List.drop_eq_nil_of_le hka,
      List.nil_append]
    exact List.drop_suffix _ b
  · right
    refine ⟨a.drop k, List.drop_suffix k a, ?_⟩
    rw [hd, List.drop_append_eq_append_drop,
      Nat.sub_eq_zero_of_le (by omega), List.drop_zero]

theorem SEPARATOR_eq :
    SEPARATOR = nl :: nl :: '-' :: "--SLIDE_SEPARATOR---\n\n".data := by decide

theorem sep_not_pre_1 {c : Char} (w : Str) (h : c ≠ nl) :
    SEPARATOR.isPrefixOf (c :: w) = false := by
  rw [SEPARATOR_eq]
  simp only [List.isPrefixOf, Bool.and_eq_false_iff]
  left
  simp [show ¬ nl = c from fun he => h he.symm]

theorem sep_not_pre_2 {c2 : Char} (w : Str) (h : c2 ≠ nl) :
    SEPARATOR.isPrefixOf (nl :: c2 :: w) = false := by
  rw [SEPARATOR_eq]
  simp only [List.isPrefixOf, Bool.and_eq_false_iff]
  right
  left
  simp [show ¬ nl = c2 from fun he => h he.symm]

theorem sep_not_pre_3 {c3 : Char} (w : Str) (h : c3 ≠ '-') :
    SEPARATOR.isPrefixOf (nl :: nl :: c3 :: w) = false := by
  rw [SEPARATOR_eq]
  simp only [List.isPrefixOf, Bool.and_eq_false_iff]
  right
  right
  left
  simp [show ¬ '-' = c3 from fun he => h he.symm]

theorem noOccB_iff (sep : Str) :
    ∀ b : Str, NoOccB sep b = true ↔
      ∀ b', b' <:+ b → sep.isPrefixOf b' = false := by
  intro b
  induction b with
  | nil =>
    simp only [NoOccB, Bool.not_eq_true']
    constructor
    · intro h b' hb'
      rw [List.suffix_nil.mp hb']
      exact h
    · intro h
      exact h [] (by simp)
  | cons c t ih =>
    simp only [NoOccB, Bool.and_eq_true, Bool.not_eq_true', ih]
    constructor
    · rintro ⟨h1, h2⟩ b' hb'
      rcases List.suffix_cons_iff.mp hb' with rfl | hb''
      · exact h1
      · exact h2 b' hb''
    · intro h
      exact ⟨h (c :: t) (by simp), fun b' hb' => h b' (List.suffix_cons_iff.mpr (Or.inr hb'))⟩

theorem cleanB_iff (sep : Str) :
    ∀ b : Str, CleanB sep b = true ↔
      ∀ b', b' <:+ b → b' ≠ [] → sep.isPrefixOf (b' ++ sep) = false := by
  intro b
  induction b with
  | nil =>
    simp only [CleanB]
    constructor
    · intro _ b' hb' hne
      exact absurd (List.suffix_nil.mp hb') hne
    · intro _
      trivial
  | cons c t ih =>
    simp only [CleanB, Bool.and_eq_true, Bool.not_eq_true', ih]
    constructor
    · rintro ⟨h1, h2⟩ b' hb' hne
      rcases List.suffix_cons_iff.mp hb' with rfl | hb''
      · exact h1
      · exact h2 b' hb'' hne
    · intro h
      exact ⟨h (c :: t) (by simp) (by simp),
        fun b' hb' hne => h b' (List.suffix_cons_iff.mpr (Or.inr hb')) hne⟩

/-! ### Canonical slides (the class on which the export inverts) -/

/-- A title in the canonical form produced by the normalizer and safe
for the `Slide {n}: {title}` framing: non-empty, a single line, no
surrounding whitespace, not ending in `*`. -/
def goodTitle (t : Str) : Bool :=
  !t.isEmpty && t.all (fun c => !(c == nl)) && !isWs (t.headD 'x') &&
    !isWs (t.reverse.headD 'x') && !(t.reverse.headD 'x' == '*')

/-- A content line in the canonical form produced by the normalizer:
non-empty, no surrounding whitespace, bullet glyph already canonical. -/
def goodLine (l : Str) : Bool :=
  !l.isEmpty && !isWs (l.headD 'x') && !isWs (l.reverse.headD 'x') &&
    (canonBullet l == l)

/-- Canonical content: empty, or newline-joined canonical lines. -/
def goodContent (c : Str) : Bool :=
  c.isEmpty || (splitOn [nl] c).all goodLine

/-- One exported block: ``Slide ${i+1}: ${slide.title}\n\n${slide.content}``. -/
def blockOf (i : Nat) (slide : Slide) : Str :=
  "Slide ".data ++ natChars (i + 1) ++ ": ".data ++ slide.title
    ++ [nl, nl] ++ slide.content

theorem downloadAsTXT_eq (slides : List Slide) :
    downloadAsTXT slides = joinSep SEPARATOR (mapIdxF blockOf 0 slides) := rfl

theorem joinSep_cons_head {l1 : Str} (L' : List Str) {c1 : Char} {t1 : Str}
    (h : l1 = c1 :: t1) :
    ∃ r, joinSep [nl] (l1 :: L') = c1 :: (t1 ++ r) := by
  cases L' with
  | nil => exact ⟨[], by simp [h, joinSep]⟩
  | cons l2 L'' =>
    refine ⟨[nl] ++ joinSep [nl] (l2 :: L''), ?_⟩
    rw [joinSep_cons_ne [nl] l1 (by simp), h]
    simp

theorem nlcons_case {l2 : Str} (L'' : List Str) (z : Str)
    (hl2ne : l2 ≠ []) (hl2nl : nl ∉ l2) :
    SEPARATOR.isPrefixOf ((nl :: joinSep [nl] (l2 :: L'')) ++ z) = false := by
  obtain ⟨c2, t2, hl2⟩ : ∃ c2 t2, l2 = c2 :: t2 := by
    cases l2 with
    | nil => exact absurd rfl hl2ne
    | cons c2 t2 => exact ⟨c2, t2, rfl⟩
  have hc2 : c2 ≠ nl := by
    intro he
    rw [hl2, he] at hl2nl
    exact hl2nl (by simp)
  obtain ⟨r, hr⟩ := joinSep_cons_head L'' hl2
  rw [hr]
  show SEPARATOR.isPrefixOf (nl :: c2 :: (t2 ++ r ++ z)) = false
  exact sep_not_pre_2 _ hc2

theorem content_zone :
    ∀ L : List Str, (∀ l ∈ L, l ≠ [] ∧ nl ∉ l) →
      ∀ (z t : Str), t <:+ joinSep [nl] L → t ≠ [] →
        SEPARATOR.isPrefixOf (t ++ z) = false := by
  intro L
  induction L with
  | nil =>
    intro _ z t ht hne
    exact absurd (List.suffix_nil.mp ht) hne
  | cons l L' ih =>
    intro hL z t ht hne
    cases L' with
    | nil =>
      show _ = false
      cases t with
      | nil => exact absurd rfl hne
      | cons c t' =>
        have hc : c ∈ l := ht.subset (by simp)
        have : c ≠ nl := fun he => (hL l (by simp)).2 (he ▸ hc)
        exact sep_not_pre_1 _ this
    | cons l2 L'' =>
      rw [joinSep_cons_ne [nl] l (by simp), List.append_assoc] at ht
      have hnlc : ∀ w, w = nl :: joinSep [nl] (l2 :: L'') →
          SEPARATOR.isPrefixOf (w ++ z) = false := by
        intro w hw
        rw [hw]
        exact nlcons_case L'' z (hL l2 (by simp)).1 (hL l2 (by simp)).2
      rcases suffix_append_cases ht with h | ⟨a', ha', rfl⟩
      · rcases List.suffix_cons_iff.mp h with rfl | h2
        · exact hnlc _ rfl
        · exact ih (fun x hx => hL x (by simp [hx])) z t h2 hne
      · cases a' with
        | nil => exact hnlc _ (by simp)
        | cons c t'' =>
          have hc : c ∈ l := ha'.subset (by simp)
          have : c ≠ nl := fun he => (hL l (by simp)).2 (he ▸ hc)
          show SEPARATOR.isPrefixOf (c :: (t'' ++ ([nl] ++ joinSep [nl] (l2 :: L'')) ++ z)) = false
          exact sep_not_pre_1 _ this

/-- No occurrence of the stored-content separator can start inside an
exported block `hd ++ "\n\n" ++ content`, whatever well-behaved text `z`
follows it. -/
theorem block_safe (hd : Str) (L : List Str) (z : Str)
    (hz1 : SEPARATOR.isPrefixOf (nl :: nl :: z) = false)
    (hz2 : SEPARATOR.isPrefixOf (nl :: z) = false)
    (hhd : nl ∉ hd)
    (hL : ∀ l ∈ L, l ≠ [] ∧ nl ∉ l)
    (hL0 : ∀ l1 ∈ L.head?, l1.headD 'x' ≠ '-') :
    ∀ t, t <:+ hd ++ ([nl, nl] ++ joinSep [nl] L) → t ≠ [] →
      SEPARATOR.isPrefixOf (t ++ z) = false := by
  intro t ht hne
  have boundary2 : SEPARATOR.isPrefixOf ((nl :: nl :: joinSep [nl] L) ++ z) = false := by
    cases L with
    | nil => exact hz1
    | cons l1 L' =>
      obtain ⟨c1, t1, hl1⟩ : ∃ c1 t1, l1 = c1 :: t1 := by
        cases l1 with
        | nil => exact absurd rfl (hL [] (by simp)).1
        | cons c1 t1 => exact ⟨c1, t1, rfl⟩
      have hc1 : c1 ≠ '-' := by
        have := hL0 l1 (by simp)
        rw [hl1] at this
        simpa using this
      obtain ⟨r, hr⟩ := joinSep_cons_head L' hl1
      rw [hr]
      show SEPARATOR.isPrefixOf (nl :: nl :: c1 :: (t1 ++ r ++ z)) = false
      exact sep_not_pre_3 _ hc1
  have boundary1 : SEPARATOR.isPrefixOf ((nl :: joinSep [nl] L) ++ z) = false := by
    cases L with
    | nil => exact hz2
    | cons l1 L' => exact nlcons_case L' z (hL l1 (by simp)).1 (hL l1 (by simp)).2
  rcases suffix_append_cases ht with h | ⟨a', ha', rfl⟩
  · rcases List.suffix_cons_iff.mp h with rfl | h2
    · exact boundary2
    · rcases List.suffix_cons_iff.mp h2 with rfl | h3
      · exact boundary1
      · exact content_zone L hL z t h3 hne
  · cases a' with
    | nil => exact boundary2
    | cons c t'' =>
      have hc : c ∈ hd := ha'.subset (by simp)
      have : c ≠ nl := fun he => hhd (he ▸ hc)
      show SEPARATOR.isPrefixOf (c :: (t'' ++ ([nl, nl] ++ joinSep [nl] L) ++ z)) = false
      exact sep_not_pre_1 _ this

def headerOf (i : Nat) (slide : Slide) : Str :=
  "Slide ".data ++ natChars (i + 1) ++ ": ".data ++ slide.title

theorem blockOf_decomp (i : Nat) (slide : Slide) :
    blockOf i slide = headerOf i slide ++ ([nl, nl] ++ slide.content) := by
  simp [blockOf, headerOf, List.append_assoc]

theorem goodTitle_spec {t : Str} (h : goodTitle t = true) :
    t ≠ [] ∧ (∀ c ∈ t, c ≠ nl) ∧ isWs (t.headD 'x') = false ∧
      isWs (t.reverse.headD 'x') = false ∧ t.reverse.headD 'x' ≠ '*' := by
  unfold goodTitle at h
  simp only [Bool.and_eq_true, Bool.not_eq_true', List.isEmpty_eq_false,
    List.all_eq_true, beq_eq_false_iff_ne] at h
  obtain ⟨⟨⟨⟨h1, h2⟩, h3⟩, h4⟩, h5⟩ := h
  exact ⟨h1, h2, h3, h4, h5⟩

theorem goodLine_spec {l : Str} (h : goodLine l = true) :
    l ≠ [] ∧ isWs (l.headD 'x') = false ∧ isWs (l.reverse.headD 'x') = false ∧
      canonBullet l = l := by
  unfold goodLine at h
  simp only [Bool.and_eq_true, Bool.not_eq_true', List.isEmpty_eq_false,
    beq_iff_eq] at h
  obtain ⟨⟨⟨h1, h2⟩, h3⟩, h4⟩ := h
  exact ⟨h1, h2, h3, h4⟩

theorem canonBullet_cons (c : Char) (t : Str) :
    canonBullet (c :: t) =
      if c = '*' ∨ c = '-' ∨ c = '•' then '•' :: ' ' :: t.dropWhile isWs
      else c :: t := rfl

theorem canonBullet_head_ne {l : Str} (h : canonBullet l = l) :
    l.headD 'x' ≠ '-' := by
  cases l with
  | nil => decide
  | cons c t =>
    show c ≠ '-'
    intro he
    subst he
    rw [canonBullet_cons, if_pos (by simp)] at h
    simp at h

theorem header_no_nl {i : Nat} {slide : Slide} (ht : goodTitle slide.title = true) :
    nl ∉ headerOf i slide := by
  unfold headerOf
  intro hmem
  simp only [List.mem_append] at hmem
  rcases hmem with ((h | h) | h) | h
  · revert h; decide
  · have := digit_facts (natChars_digits _ _ h)
    exact this.2.1 rfl
  · revert h; decide
  · exact ((goodTitle_spec ht).2.1 nl h) rfl

theorem goodContent_decomp {c : Str} (h : goodContent c = true) :
    ∃ L, c = joinSep [nl] L ∧ (∀ l ∈ L, l ≠ [] ∧ nl ∉ l) ∧
      (∀ l1 ∈ L.head?, l1.headD 'x' ≠ '-') ∧
      (∀ l ∈ L, goodLine l = true) := by
  unfold goodContent at h
  rcases Bool.or_eq_true_iff.mp h with h | h
  · refine ⟨[], ?_, by simp, by simp, by simp⟩
    rw [List.isEmpty_iff.mp h]
    rfl
  · rw [List.all_eq_true] at h
    refine ⟨splitOn [nl] c, ?_, ?_, ?_, h⟩
    · rw [joinSep_splitOn [nl] (by simp) c.length c (le_refl _)]
    · intro l hl
      exact ⟨(goodLine_spec (h l hl)).1, splitOn_single_parts l hl⟩
    · intro l1 hl1
      have hmem : l1 ∈ splitOn [nl] c := by
        cases hsp : splitOn [nl] c with
        | nil => rw [hsp] at hl1; cases hl1
        | cons a rest =>
          rw [hsp] at hl1
          simp only [List.head?_cons, Option.mem_def, Option.some.injEq] at hl1
          rw [← hl1]
          exact List.mem_cons_self a rest
      exact canonBullet_head_ne (goodLine_spec (h l1 hmem)).2.2.2

/-- Every exported block of a canonical slide is clean for the
stored-content separator: re-splitting cuts exactly at the block
boundaries. -/
theorem blockOf_safe (i : Nat) (slide : Slide)
    (ht : goodTitle slide.title = true) (hc : goodContent slide.content = true) :
    CleanB SEPARATOR (blockOf i slide) = true ∧
      NoOccB SEPARATOR (blockOf i slide) = true := by
  obtain ⟨L, hL_eq, hL1, hL0, _⟩ := goodContent_decomp hc
  have hhd : nl ∉ headerOf i slide := header_no_nl ht
  constructor
  · rw [cleanB_iff]
    intro b' hb' hne
    rw [blockOf_decomp, hL_eq] at hb'
    exact block_safe (headerOf i slide) L SEPARATOR (by decide) (by decide)
      hhd hL1 hL0 b' hb' hne
  · rw [noOccB_iff]
    intro b' hb'
    rw [blockOf_decomp, hL_eq] at hb'
    cases hb'e : b' with
    | nil => decide
    | cons x xs =>
      have := block_safe (headerOf i slide) L [] (by decide) (by decide)
        hhd hL1 hL0 (x :: xs) (hb'e ▸ hb') (by simp)
      rwa [List.append_nil] at this

theorem headerOf_cons (i : Nat) (slide : Slide) :
    headerOf i slide =
      'S' :: ((("lide ".data ++ natChars (i + 1)) ++ ": ".data) ++ slide.title) := rfl

theorem header_ne_nil (i : Nat) (slide : Slide) : headerOf i slide ≠ [] := by
  rw [headerOf_cons]
  simp

theorem header_headD (i : Nat) (slide : Slide) :
    (headerOf i slide).headD 'x' = 'S' := by
  rw [headerOf_cons]
  rfl

theorem header_last (i : Nat) (slide : Slide) (h : slide.title ≠ []) :
    (headerOf i slide).reverse.headD 'x' = slide.title.reverse.headD 'x' := by
  unfold headerOf
  exact reverse_headD_append _ h

theorem isPrefixOf_false_of_head_ne {a b : Char} (p s : Str) (h : a ≠ b) :
    ((a :: p).isPrefixOf (b :: s)) = false := by
  simp [List.isPrefixOf, beq_eq_false_iff_ne, h]

theorem stars_not_prefix {c : Char} (w : Str) (h : c ≠ '*') :
    ("**".data).isPrefixOf (c :: w) = false := by
  show (('*' :: "*".data).isPrefixOf (c :: w)) = false
  exact isPrefixOf_false_of_head_ne _ _ (fun he => h he.symm)

theorem stars_not_suffix {s : Str} (h : s.reverse.headD 'x' ≠ '*') :
    ("**".data).isSuffixOf s = false := by
  show (("**".data).reverse).isPrefixOf s.reverse = false
  rw [show ("**".data).reverse = '*' :: "*".data from by decide]
  cases hs : s.reverse with
  | nil => rfl
  | cons e r =>
    rw [hs] at h
    exact isPrefixOf_false_of_head_ne _ _ (fun he => h he.symm)

theorem stripStars_eq {s : Str} (h1 : ("**".data).isPrefixOf s = false)
    (h2 : ("**".data).isSuffixOf s = false) : stripStars s = s := by
  simp only [stripStars, h1, h2, Bool.false_eq_true, if_false]

theorem stripLabel_eq {s : Str} (h1 : ciHasPre ("Slide Title:".data) s = false)
    (h2 : ciHasPre ("Title:".data) s = false) : stripLabel s = s := by
  unfold stripLabel
  rw [if_neg (by rw [h1]; simp), if_neg (by rw [h2]; simp)]

theorem ciHasPre_slideTitle_header (i : Nat) (slide : Slide) :
    ciHasPre ("Slide Title:".data) (headerOf i slide) = false := by
  unfold ciHasPre headerOf
  rw [List.append_assoc, List.append_assoc, List.map_append,
    show ("Slide Title:".data).map toLowerCh =
      ("Slide ".data).map toLowerCh ++ "title:".data from by decide,
    isPrefixOf_append_same]
  obtain ⟨d, rest, hd_eq⟩ : ∃ d rest, natChars (i + 1) = d :: rest := by
    cases hn : natChars (i + 1) with
    | nil => exact absurd hn (natChars_ne_nil _)
    | cons d rest => exact ⟨d, rest, rfl⟩
  rw [List.map_append, hd_eq, List.map_cons, List.cons_append,
    show ("title:".data) = 't' :: "itle:".data from rfl]
  refine isPrefixOf_false_of_head_ne _ _ ?_
  have hdig := digit_facts (natChars_digits (i + 1) d (by rw [hd_eq]; simp))
  exact fun he => hdig.2.2.2.2.2 he.symm

theorem ciHasPre_title_header (i : Nat) (slide : Slide) :
    ciHasPre ("Title:".data) (headerOf i slide) = false := by
  unfold ciHasPre
  rw [headerOf_cons]
  rw [show ("Title:".data).map toLowerCh = 't' :: "itle:".data from by decide]
  simp only [List.map_cons]
  refine isPrefixOf_false_of_head_ne _ _ ?_
  decide

theorem header_trim (i : Nat) (slide : Slide) (ht : goodTitle slide.title = true) :
    trim (headerOf i slide) = headerOf i slide := by
  have hts := goodTitle_spec ht
  refine trim_eq_self ?_ ?_
  · rw [header_headD]; decide
  · rw [header_last i slide hts.1]
    exact hts.2.2.2.1

theorem titleOf_header (i : Nat) (slide : Slide) (rest : List Str)
    (ht : goodTitle slide.title = true) :
    titleOf (headerOf i slide :: rest) i = headerOf i slide := by
  have hts := goodTitle_spec ht
  unfold titleOf
  simp only [List.head?_cons]
  rw [stripStars_eq
      (by rw [headerOf_cons]; exact stars_not_prefix _ (by decide))
      (stars_not_suffix (by rw [header_last i slide hts.1]; exact hts.2.2.2.2)),
    stripLabel_eq (ciHasPre_slideTitle_header i slide) (ciHasPre_title_header i slide),
    header_trim i slide ht]
  rw [if_neg (header_ne_nil i slide)]

theorem joinSep_ne_nil {l0 : Str} (L' : List Str) (h : l0 ≠ []) :
    joinSep [nl] (l0 :: L') ≠ [] := by
  cases L' with
  | nil => exact h
  | cons l2 L'' =>
    rw [joinSep_cons_ne [nl] l0 (by simp)]
    intro hcontra
    have h1 := List.append_eq_nil.mp hcontra
    exact h (List.append_eq_nil.mp h1.1).1

theorem joinSep_last_nonws :
    ∀ (L : List Str), (∀ l ∈ L, goodLine l = true) → L ≠ [] →
      isWs ((joinSep [nl] L).reverse.headD 'x') = false := by
  intro L
  induction L with
  | nil => intro _ h; exact absurd rfl h
  | cons l0 L' ih =>
    intro hL _
    cases L' with
    | nil => exact (goodLine_spec (hL l0 (by simp))).2.2.1
    | cons l2 L'' =>
      rw [joinSep_cons_ne [nl] l0 (by simp), List.append_assoc,
        reverse_headD_append _ (by simp),
        reverse_headD_append _ (joinSep_ne_nil L'' (goodLine_spec (hL l2 (by simp))).1)]
      exact ih (fun l hl => hL l (by simp [hl])) (by simp)

theorem nonBlank_of_good {l : Str} (h : goodLine l = true) : nonBlank l = true := by
  have hs := goodLine_spec h
  unfold nonBlank
  rw [trim_eq_self hs.2.1 hs.2.2.1]
  simp [hs.1]

theorem nonBlank_header (i : Nat) (slide : Slide) (ht : goodTitle slide.title = true) :
    nonBlank (headerOf i slide) = true := by
  unfold nonBlank
  rw [header_trim i slide ht]
  simp [header_ne_nil i slide]

theorem trim_block_nil (i : Nat) (slide : Slide) (ht : goodTitle slide.title = true) :
    trim (headerOf i slide ++ ([nl, nl] ++ joinSep [nl] ([] : List Str))) =
      headerOf i slide := by
  have hts := goodTitle_spec ht
  show trim (headerOf i slide ++ ([nl, nl] ++ [])) = headerOf i slide
  rw [List.append_nil]
  have hdw1 : List.dropWhile isWs (headerOf i slide ++ [nl, nl]) =
      headerOf i slide ++ [nl, nl] :=
    dropWhile_of_headD (by
      rw [headD_append_left _ (header_ne_nil i slide), header_headD]; decide)
  have hdw2 : List.dropWhile isWs (headerOf i slide).reverse =
      (headerOf i slide).reverse :=
    dropWhile_of_headD (by
      rw [header_last i slide hts.1]; exact hts.2.2.2.1)
  unfold trim trimR
  rw [hdw1, List.reverse_append]
  show (List.dropWhile isWs (nl :: nl :: (headerOf i slide).reverse)).reverse = _
  rw [List.dropWhile_cons, if_pos (by decide), List.dropWhile_cons, if_pos (by decide),
    hdw2, List.reverse_reverse]

theorem trim_block_cons (i : Nat) (slide : Slide) (_ht : goodTitle slide.title = true)
    (l0 : Str) (L' : List Str) (hLgood : ∀ l ∈ l0 :: L', goodLine l = true) :
    trim (headerOf i slide ++ ([nl, nl] ++ joinSep [nl] (l0 :: L'))) =
      headerOf i slide ++ ([nl, nl] ++ joinSep [nl] (l0 :: L')) := by
  have hjoin_ne : joinSep [nl] (l0 :: L') ≠ [] :=
    joinSep_ne_nil L' (goodLine_spec (hLgood l0 (by simp))).1
  refine trim_eq_self ?_ ?_
  · rw [headD_append_left _ (header_ne_nil i slide), header_headD]; decide
  · rw [reverse_headD_append _ (by simp [hjoin_ne]),
      reverse_headD_append _ hjoin_ne]
    exact joinSep_last_nonws _ hLgood (by simp)

theorem slideLines_block_nil (i : Nat) (slide : Slide)
    (ht : goodTitle slide.title = true) :
    slideLines (headerOf i slide ++ ([nl, nl] ++ joinSep [nl] ([] : List Str))) =
      [headerOf i slide] := by
  unfold slideLines
  rw [trim_block_nil i slide ht]
  have hsplit : splitOn [nl] (headerOf i slide) = [headerOf i slide] := by
    unfold splitOn
    rw [demux_noOcc _ (noOccB_of_not_mem (header_no_nl ht))]
    rfl
  rw [hsplit]
  show List.filter nonBlank [headerOf i slide] = _
  rw [List.filter_cons, if_pos (by rw [nonBlank_header i slide ht])]
  rfl

theorem slideLines_block_cons (i : Nat) (slide : Slide)
    (ht : goodTitle slide.title = true) (l0 : Str) (L' : List Str)
    (hL1 : ∀ l ∈ l0 :: L', l ≠ [] ∧ nl ∉ l)
    (hLgood : ∀ l ∈ l0 :: L', goodLine l = true) :
    slideLines (headerOf i slide ++ ([nl, nl] ++ joinSep [nl] (l0 :: L'))) =
      headerOf i slide :: l0 :: L' := by
  unfold slideLines
  rw [trim_block_cons i slide ht l0 L' hLgood]
  have hshape : headerOf i slide ++ ([nl, nl] ++ joinSep [nl] (l0 :: L')) =
      joinSep [nl] (headerOf i slide :: [] :: l0 :: L') := by
    rw [joinSep_cons_ne [nl] (headerOf i slide) (by simp),
      joinSep_cons_ne [nl] [] (by simp)]
    simp [nlnl]
  rw [hshape, splitOn_joinSep_single (c := nl) ?hnonl (by simp)]
  case hnonl =>
    intro x hx
    rcases List.mem_cons.mp hx with rfl | hx2
    · exact header_no_nl ht
    · rcases List.mem_cons.mp hx2 with rfl | hx3
      · simp
      · exact (hL1 x hx3).2
  show List.filter nonBlank _ = _
  rw [List.filter_cons, if_pos (by rw [nonBlank_header i slide ht]),
    List.filter_cons, if_neg (by simp [nonBlank, trim, trimR])]
  rw [List.filter_eq_self.mpr (fun a ha => nonBlank_of_good (hLgood a ha))]

/-- Re-parsing one exported block of a canonical slide: the content and
the positional index survive unchanged, the title comes back with the
`Slide {n}: ` framing prefix still attached. -/
theorem parse_block (i : Nat) (slide : Slide)
    (ht : goodTitle slide.title = true) (hc : goodContent slide.content = true) :
    parseSlidePV (blockOf i slide) i =
      { title := headerOf i slide, content := slide.content, index := i } := by
  obtain ⟨L, hL_eq, hL1, hL0, hLgood⟩ := goodContent_decomp hc
  show Slide.mk (titleOf (slideLines (blockOf i slide)) i)
      (joinSep [nl] (((slideLines (blockOf i slide)).drop 1).map canonBullet)) i
    = Slide.mk (headerOf i slide) slide.content i
  rw [blockOf_decomp, hL_eq]
  cases L with
  | nil =>
    rw [slideLines_block_nil i slide ht, titleOf_header i slide [] ht]
    rfl
  | cons l0 L' =>
    rw [slideLines_block_cons i slide ht l0 L' hL1 hLgood,
      titleOf_header i slide _ ht]
    have hmap : (l0 :: L').map canonBullet = l0 :: L' :=
      (List.map_congr_left fun a ha => (goodLine_spec (hLgood a ha)).2.2.2).trans
        (List.map_id _)
    show Slide.mk _ (joinSep [nl] ((l0 :: L').map canonBullet)) _ = _
    rw [hmap]

theorem keepPart_block (i : Nat) (slide : Slide)
    (ht : goodTitle slide.title = true) (hc : goodContent slide.content = true) :
    keepPart (blockOf i slide) = true := by
  obtain ⟨L, hL_eq, hL1, hL0, hLgood⟩ := goodContent_decomp hc
  have htrim : trim (blockOf i slide) = headerOf i slide ∨
      trim (blockOf i slide) = blockOf i slide := by
    rw [blockOf_decomp, hL_eq]
    cases L with
    | nil => exact Or.inl (trim_block_nil i slide ht)
    | cons l0 L' => exact Or.inr (by rw [trim_block_cons i slide ht l0 L' hLgood])
  have hS : ∀ w : Str, w.headD 'x' = 'S' → w ≠ [] →
      (!w.isEmpty && !(w == TOKEN)) = true := by
    intro w hw hne
    cases w with
    | nil => exact absurd rfl hne
    | cons c t =>
      simp only [List.headD_cons] at hw
      subst hw
      rw [show (('S' :: t : Str) == TOKEN) = false from by
        rw [show TOKEN = '-' :: "--SLIDE_SEPARATOR---".data from by decide]
        simp]
      simp
  unfold keepPart
  rcases htrim with h | h
  · rw [h]
    exact hS _ (header_headD i slide) (header_ne_nil i slide)
  · rw [h, blockOf_decomp]
    refine hS _ ?_ (by simp [header_ne_nil i slide])
    rw [headD_append_left _ (header_ne_nil i slide)]
    exact header_headD i slide

theorem mapIdxF_mem {α β : Type} (f : Nat → α → β) :
    ∀ (k : Nat) (l : List α) (b : β), b ∈ mapIdxF f k l →
      ∃ i a, a ∈ l ∧ b = f i a := by
  intro k l
  induction l generalizing k with
  | nil => intro b hb; cases hb
  | cons x xs ih =>
    intro b hb
    rcases List.mem_cons.mp hb with rfl | hb'
    · exact ⟨k, x, by simp, rfl⟩
    · obtain ⟨i, a, ha, hba⟩ := ih (k + 1) b hb'
      exact ⟨i, a, by simp [ha], hba⟩

theorem mapIdxF_mapIdxF {α β γ : Type} (f : Nat → α → β) (g : Nat → β → γ) :
    ∀ (k : Nat) (l : List α),
      mapIdxF g k (mapIdxF f k l) = mapIdxF (fun i x => g i (f i x)) k l := by
  intro k l
  induction l generalizing k with
  | nil => rfl
  | cons x xs ih => simp [mapIdxF, ih]

theorem mapIdxF_congr {α β : Type} (f g : Nat → α → β) :
    ∀ (k : Nat) (l : List α), (∀ i x, x ∈ l → f i x = g i x) →
      mapIdxF f k l = mapIdxF g k l := by
  intro k l
  induction l generalizing k with
  | nil => intro _; rfl
  | cons x xs ih =>
    intro h
    simp only [mapIdxF]
    rw [h k x (by simp), ih (k + 1) (fun i y hy => h i y (by simp [hy]))]

theorem mapIdxF_ne_nil {α β : Type} (f : Nat → α → β) (k : Nat)
    {l : List α} (h : l ≠ []) : mapIdxF f k l ≠ [] := by
  cases l with
  | nil => exact absurd rfl h
  | cons x xs => simp [mapIdxF]

/-- C1: the round trip is NOT the identity: exporting the single slide
`{title := "A", content := "B", index := 0}` and re-parsing the export
yields a slide titled `"Slide 1: A"`, because `parseSlide` never strips
the `Slide {n}: ` framing prefix that `downloadAsTXT` adds. -/
theorem C1_roundtrip_counterexample :
    rehydrate (downloadAsTXT [{ title := "A".data, content := "B".data, index := 0 }]) ≠
      [{ title := "A".data, content := "B".data, index := 0 }] := by
  decide

/-- C1 (amended): for canonical slides (title non-empty, single-line, trimmed,
not ending in `*`; content empty or newline-joined canonical lines), exporting
with `downloadAsTXT` and re-parsing with the same boundary marker yields the
same number of slides with identical content and index, but every title comes
back with the `Slide {n}: ` framing prefix prepended — the round trip is not
the identity on titles. -/
theorem C1_export_reparse (slides : List Slide)
    (h : ∀ sl ∈ slides, goodTitle sl.title = true ∧ goodContent sl.content = true) :
    rehydrate (downloadAsTXT slides) =
      mapIdxF
        (fun i sl =>
          { title := "Slide ".data ++ natChars (i + 1) ++ ": ".data ++ sl.title,
            content := sl.content, index := i })
        0 slides := by
  cases slides with
  | nil => rfl
  | cons s0 rest =>
    rw [downloadAsTXT_eq]
    unfold rehydrate rehydrateParts
    rw [splitOn_joinSep SEPARATOR (by decide) (mapIdxF blockOf 0 (s0 :: rest))
        (fun b hb => by
          obtain ⟨i, a, ha, rfl⟩ := mapIdxF_mem blockOf 0 (s0 :: rest) b hb
          exact blockOf_safe i a (h a ha).1 (h a ha).2)
        (mapIdxF_ne_nil blockOf 0 (by simp))]
    rw [List.filter_eq_self.mpr
        (fun b hb => by
          obtain ⟨i, a, ha, rfl⟩ := mapIdxF_mem blockOf 0 (s0 :: rest) b hb
          exact keepPart_block i a (h a ha).1 (h a ha).2)]
    rw [mapIdxF_mapIdxF]
    exact mapIdxF_congr _ _ 0 (s0 :: rest)
      (fun i x hx => parse_block i x (h x hx).1 (h x hx).2)

theorem C1_export_reparse_witness :
    (∀ sl ∈ ([{ title := "Alpha".data, content := "• One\n• Two".data, index := 0 },
              { title := "Beta".data, content := "".data, index := 1 }] : List Slide),
        goodTitle sl.title = true ∧ goodContent sl.content = true) ∧
      rehydrate (downloadAsTXT
          [{ title := "Alpha".data, content := "• One\n• Two".data, index := 0 },
           { title := "Beta".data, content := "".data, index := 1 }]) =
        mapIdxF
          (fun i (sl : Slide) =>
            ({ title := "Slide ".data ++ natChars (i + 1) ++ ": ".data ++ sl.title,
               content := sl.content, index := i } : Slide))
          0
          ([{ title := "Alpha".data, content := "• One\n• Two".data, index := 0 },
            { title := "Beta".data, content := "".data, index := 1 }] : List Slide) :=
  ⟨by decide, C1_export_reparse _ (by decide)⟩
